import Mathlib

/-!
Verification of the Activity Extraction & Fusion Engine of `app.py`
(TRMNL Goodreads template).

The Python source is shallowly embedded: each relevant function of
`app.py` is translated to an executable Lean definition.  Python
regular-expression searches are modelled by a small backtracking
matcher (`reMatch`) over an explicit pattern AST; each pattern used by
the source is transliterated to that AST next to a comment quoting the
original regex.  Python strings are Lean `String`s, `None` is `none`,
raised exceptions are `Except.error`, and the `requests`/`feedparser`
I/O boundary is abstracted by passing the fetched documents as
arguments.  Character-level points of the model: Python `str.lower`,
`\w` and `\s` are modelled on their ASCII fragments (`Char.toLower`,
alphanumeric-or-underscore, `Char.isWhitespace`).
-/

/-! ## Python string primitives -/

/-- Model of Python `str.lower()` (ASCII fragment). -/
def pyLower (s : String) : String := String.mk (s.data.map Char.toLower)

/-- Model of the Python whitespace class `\s` / `str.strip()` class (ASCII fragment). -/
def isPySpace (c : Char) : Bool := c.isWhitespace

/-- Model of Python `str.strip()`: drop leading and trailing whitespace. -/
def pyStrip (s : String) : String :=
  String.mk (((s.data.dropWhile isPySpace).reverse.dropWhile isPySpace).reverse)

/-- Containment of `n` in `h` as a list infix: model of Python `n in h`. -/
def infixB (n : List Char) : List Char → Bool
  | [] => n.isEmpty
  | c :: t => n.isPrefixOf (c :: t) || infixB n t

/-- Model of the Python substring test `needle in haystack`. -/
def pyIn (needle haystack : String) : Bool := infixB needle.data haystack.data

/-- Numeric value of a decimal digit string: model of Python `int(s)` on
captures of `(\d+)` (always succeeds there, arbitrary precision). -/
def pyInt (s : String) : Nat :=
  s.data.foldl (fun n c => n * 10 + (c.toNat - 48)) 0

/-- Lexicographic strict comparison of char lists by code point:
model of Python string `<`/`>`. -/
def strLtb : List Char → List Char → Bool
  | [], [] => false
  | [], _ :: _ => true
  | _ :: _, [] => false
  | a :: as, b :: bs => if a = b then strLtb as bs else decide (a.toNat < b.toNat)

/-- Model of Python string `<` (comparison by code points). -/
def sLt (a b : String) : Bool := strLtb a.data b.data

/-- Larger of two strings under `sLt`, keeping the first on ties. -/
def maxS (a b : String) : String := if sLt a b then b else a

/-! ## A small backtracking regex matcher

Patterns of `app.py` only use: literals, single-character classes,
greedy/lazy `*` and `+` over a character class, alternation, optional
groups, one level of (numbered, non-nested) capture groups and the
end-anchor `$`.  `reMatch` implements Python `re` backtracking order:
alternatives are tried left to right, greedy quantifiers prefer longer
matches, lazy quantifiers prefer shorter ones, and `re.search` tries
start positions left to right.  Case-insensitive matching
(`re.IGNORECASE`) is the `ci` flag, applied to literals. -/

inductive RE where
  | eps : RE
  | lit : String → RE
  | cls : (Char → Bool) → RE
  | star : (Char → Bool) → Bool → RE
  | seq : RE → RE → RE
  | alt : RE → RE → RE
  | opt : RE → RE
  | grp : RE → RE
  | eos : RE

/-- Captured groups, in order of the opening parentheses. -/
abbrev Caps := List String

/-- Result of a match attempt: remaining input and captures. -/
abbrev MRes := Option (List Char × Caps)

/-- Continuation taking the rest of the input and the captures so far. -/
abbrev MCont := List Char → Caps → MRes

/-- Consume a literal from the front of the input, optionally
case-insensitively (`ci`). -/
def dropLit (ci : Bool) : List Char → List Char → Option (List Char)
  | [], s => some s
  | _ :: _, [] => none
  | l :: ls, c :: s =>
    if (if ci then l.toLower = c.toLower else l = c) then dropLit ci ls s else none

/-- Greedy Kleene star over a character class: longest-first backtracking. -/
def starGreedy (p : Char → Bool) : List Char → Caps → MCont → MRes
  | [], caps, k => k [] caps
  | c :: s, caps, k =>
    if p c then
      match starGreedy p s caps k with
      | some r => some r
      | none => k (c :: s) caps
    else k (c :: s) caps

/-- Lazy Kleene star over a character class: shortest-first backtracking. -/
def starLazy (p : Char → Bool) : List Char → Caps → MCont → MRes
  | [], caps, k => k [] caps
  | c :: s, caps, k =>
    match k (c :: s) caps with
    | some r => some r
    | none => if p c then starLazy p s caps k else none

/-- Backtracking matcher in continuation-passing style.  `reMatch ci r s
caps k` tries to match `r` at the beginning of `s`, calling `k` with the
rest of the input and the updated captures at each candidate split, in
Python `re` preference order.  Capture groups must not be nested (none
of the embedded patterns nests them). -/
def reMatch (ci : Bool) : RE → List Char → Caps → MCont → MRes
  | .eps, s, caps, k => k s caps
  | .lit t, s, caps, k =>
    match dropLit ci t.data s with
    | some s' => k s' caps
    | none => none
  | .cls p, s, caps, k =>
    match s with
    | [] => none
    | c :: s' => if p c then k s' caps else none
  | .star p lzy, s, caps, k => if lzy then starLazy p s caps k else starGreedy p s caps k
  | .seq a b, s, caps, k => reMatch ci a s caps (fun s' caps' => reMatch ci b s' caps' k)
  | .alt a b, s, caps, k =>
    match reMatch ci a s caps k with
    | some r => some r
    | none => reMatch ci b s caps k
  | .opt a, s, caps, k =>
    match reMatch ci a s caps k with
    | some r => some r
    | none => k s caps
  | .grp a, s, caps, k =>
    reMatch ci a s caps (fun s' _ => k s' (caps ++ [String.mk (s.take (s.length - s'.length))]))
  | .eos, s, caps, k =>
    match s with
    | [] => k s caps
    | [c] => if c = '\n' then k s caps else none
    | _ => none

/-- Greedy `+` over a character class. -/
def plusG (p : Char → Bool) : RE := RE.seq (RE.cls p) (RE.star p false)

/-- Lazy `+?` over a character class. -/
def plusL (p : Char → Bool) : RE := RE.seq (RE.cls p) (RE.star p true)

/-- Match attempt anchored at the current position, returning rest and captures. -/
def reMatchHere (ci : Bool) (r : RE) (s : List Char) : MRes :=
  reMatch ci r s [] (fun rest caps => some (rest, caps))

/-- Leftmost search: model of Python `re.search`, returning the captures. -/
def reSearchL (ci : Bool) (r : RE) : List Char → Option Caps
  | [] =>
    match reMatchHere ci r [] with
    | some (_, caps) => some caps
    | none => none
  | c :: s =>
    match reMatchHere ci r (c :: s) with
    | some (_, caps) => some caps
    | none => reSearchL ci r s

/-- Leftmost search on a `String`. -/
def reSearch (ci : Bool) (r : RE) (s : String) : Option Caps := reSearchL ci r s.data

/-- Fuel-bounded worker for global substitution; structural recursion on
the fuel keeps it kernel-reducible, and fuel at least the input length
always suffices because every step consumes input. -/
def reSubAux (ci : Bool) (r : RE) (repl : List Char) : Nat → List Char → List Char
  | _, [] =>
    match reMatchHere ci r [] with
    | some _ => repl
    | none => []
  | 0, l => l
  | fuel + 1, c :: s =>
    match reMatchHere ci r (c :: s) with
    | some (rest, _) =>
      if rest.length < (c :: s).length then repl ++ reSubAux ci r repl fuel rest
      else c :: reSubAux ci r repl fuel s
    | none => c :: reSubAux ci r repl fuel s

/-- Global substitution: model of Python `re.sub(pattern, repl, s)` for
patterns that cannot match the empty string (all patterns `app.py`
substitutes with are of that kind); scanning resumes after each match. -/
def reSubL (ci : Bool) (r : RE) (repl : List Char) (l : List Char) : List Char :=
  reSubAux ci r repl l.length l

/-- Global substitution on a `String`. -/
def reSub (ci : Bool) (r : RE) (repl : String) (s : String) : String :=
  String.mk (reSubL ci r repl.data s.data)

/-- Substitution for a pattern anchored with `^` (no MULTILINE): a single
replacement of a match at position 0, model of
`re.sub(r'^...', '', s)`. -/
def reSubAnch (ci : Bool) (r : RE) (s : String) : String :=
  match reMatchHere ci r s.data with
  | some (rest, _) => String.mk rest
  | none => s

/-! ## Character classes used by the patterns -/

/-- Class `\d`. -/
def dC (c : Char) : Bool := c.isDigit

/-- Class `\s` (ASCII fragment). -/
def sC (c : Char) : Bool := isPySpace c

/-- Class `.` (any character except a newline, no DOTALL). -/
def dotC (c : Char) : Bool := c ≠ '\n'

/-- The single-quote character (code point 39), used by the quoted-title
patterns of `app.py`. -/
def qc : Char := Char.ofNat 39

/-- A one-character string holding the single quote. -/
def qs : String := String.mk [qc]

/-- Class `[^']`. -/
def nqC (c : Char) : Bool := c ≠ qc

/-- Class `[^(]`. -/
def npC (c : Char) : Bool := c ≠ '('

/-- Class `[^"]`. -/
def ndqC (c : Char) : Bool := c ≠ '\"'

/-- Class `[^>]`. -/
def ngtC (c : Char) : Bool := c ≠ '>'

/-- Class `[:\-–—]` (colon and the three dash characters of
`normalize_book_title`). -/
def dashC (c : Char) : Bool := c = ':' || c = '-' || c = '–' || c = '—'

/-- Class `[^\w\s]` (ASCII fragment of `\w`): the punctuation stripped by
`normalize_book_title`. -/
def punctC (c : Char) : Bool := !(c.isAlphanum || c = '_' || isPySpace c)

/-! ## HTML fragment helpers (model of the BeautifulSoup collaborator)

`app.py` hands HTML fragments to BeautifulSoup for two operations only:
`get_text()` (visible text of a fragment) and `find('a', href=...)`
(first anchor element).  They are modelled by character-level scanners
over well-formed fragments. -/

/-- Drop `<...>` tag spans; model of `BeautifulSoup(...).get_text()` on a
flat fragment.  The `Bool` flag records being inside a tag. -/
def stripTagsAux : List Char → Bool → List Char
  | [], _ => []
  | c :: s, true => if c = '>' then stripTagsAux s false else stripTagsAux s true
  | c :: s, false => if c = '<' then stripTagsAux s true else c :: stripTagsAux s false

/-- Visible text of an HTML fragment. -/
def getText (s : String) : String := String.mk (stripTagsAux s.data false)

/-- Split a char list at the first occurrence of `pat`, returning the part
before it and the part after it. -/
def splitFirst (pat : List Char) : List Char → Option (List Char × List Char)
  | [] => if pat.isEmpty then some ([], []) else none
  | c :: s =>
    if pat.isPrefixOf (c :: s) then some ([], (c :: s).drop pat.length)
    else
      match splitFirst pat s with
      | some (a, b) => some (c :: a, b)
      | none => none

/-- Fuel-bounded scan for `<a ...>...</a>` elements, producing
`(href, visible text)` pairs in document order; fuel equal to the input
length is always sufficient since every step consumes input. -/
def findAnchorsAux : Nat → List Char → List (String × String)
  | 0, _ => []
  | fuel + 1, s =>
    match splitFirst "<a ".data s with
    | none => []
    | some (_, rest) =>
      match splitFirst ">".data rest with
      | none => []
      | some (attrs, afterTag) =>
        match splitFirst "</a>".data afterTag with
        | none => []
        | some (inner, afterClose) =>
          let href :=
            match splitFirst "href=\"".data attrs with
            | some (_, r) =>
              match splitFirst "\"".data r with
              | some (h, _) => String.mk h
              | none => ""
            | none => ""
          (href, String.mk (stripTagsAux inner false)) :: findAnchorsAux fuel afterClose

/-- All anchor elements of an HTML fragment as `(href, text)` pairs. -/
def findAnchors (s : String) : List (String × String) :=
  findAnchorsAux (s.data.length + 1) s.data

/-! ## Feed entries

Model of the duck-typed feedparser entry: `title` is always present;
`description`, `author` and `published` are optional attributes
(`hasattr` checks in the source). -/

structure FeedEntry where
  title : String
  description : Option String
  author : Option String
  published : Option String
deriving Repr, DecidableEq

/-! ## Patterns of `extract_author_robust` (app.py lines 56-111) -/

/-- Pattern `(started reading|is currently reading|finished reading|is on page \d+ of \d+ of)`
removed from the title by strategy 2 (line 75). -/
def verbPhrasePat : RE :=
  RE.grp (RE.alt (RE.lit "started reading")
    (RE.alt (RE.lit "is currently reading")
      (RE.alt (RE.lit "finished reading")
        (RE.seq (RE.lit "is on page ")
          (RE.seq (plusG dC)
            (RE.seq (RE.lit " of ") (RE.seq (plusG dC) (RE.lit " of"))))))))

/-- Author pattern 1 (line 78): `'[^']+'\s+by\s+([^(]+?)(?:\s*\(|$)`. -/
def authorPat1 : RE :=
  RE.seq (RE.lit qs)
    (RE.seq (plusG nqC)
      (RE.seq (RE.lit qs)
        (RE.seq (plusG sC)
          (RE.seq (RE.lit "by")
            (RE.seq (plusG sC)
              (RE.seq (RE.grp (plusL npC))
                (RE.alt (RE.seq (RE.star sC false) (RE.lit "(")) RE.eos)))))))

/-- Author pattern 2 (line 79): `by\s+([^(]+?)(?:\s*\(|$)`. -/
def authorPat2 : RE :=
  RE.seq (RE.lit "by")
    (RE.seq (plusG sC)
      (RE.seq (RE.grp (plusL npC))
        (RE.alt (RE.seq (RE.star sC false) (RE.lit "(")) RE.eos)))

/-- Author pattern 3 (line 80): `'[^']*'\s*(.+?)(?:\s*started|\s*is|\s*$)`. -/
def authorPat3 : RE :=
  RE.seq (RE.lit qs)
    (RE.seq (RE.star nqC false)
      (RE.seq (RE.lit qs)
        (RE.seq (RE.star sC false)
          (RE.seq (RE.grp (plusL dotC))
            (RE.alt (RE.seq (RE.star sC false) (RE.lit "started"))
              (RE.alt (RE.seq (RE.star sC false) (RE.lit "is"))
                (RE.seq (RE.star sC false) RE.eos)))))))

/-- Tag-stripping pattern `<[^>]+>` (lines 87, 99). -/
def tagPat : RE := RE.seq (RE.lit "<") (RE.seq (plusG ngtC) (RE.lit ">"))

/-- Whitespace run `\s+` (lines 88, 183). -/
def wsPat : RE := plusG sC

/-- Prefix pattern `^.*?(started reading|is currently reading)` removed
from the author field by strategy 3 (line 100). -/
def authorPrefixPat : RE :=
  RE.seq (RE.star dotC true)
    (RE.grp (RE.alt (RE.lit "started reading") (RE.lit "is currently reading")))

/-- Strategy 1 (lines 61-71): first `<a>` link of the description whose
`href` contains `/author/`; its stripped text is accepted when nonempty,
longer than 1 and different from `"Unknown Author"` (no upper length
bound in this strategy). -/
def strategy1 (d : Option String) : Option String :=
  match d with
  | none => none
  | some html =>
    match (findAnchors html).find? (fun hp => pyIn "/author/" hp.1) with
    | some hp =>
      let author_name := pyStrip hp.2
      if author_name ≠ "" ∧ author_name.length > 1 ∧ author_name ≠ "Unknown Author" then
        some author_name
      else none
    | none => none

/-- One strategy-2 pattern attempt (lines 83-92): on a match, the capture
is stripped, tag-stripped, whitespace-collapsed, and accepted when its
length lies strictly between 1 and 100. -/
def tryAuthorPattern (r : RE) (t : String) : Option String :=
  match reSearch true r t with
  | some [g1] =>
    let a := pyStrip g1
    let a := reSub false tagPat "" a
    let a := reSub false wsPat " " a
    if a ≠ "" ∧ a.length > 1 ∧ a.length < 100 then some a else none
  | _ => none

/-- Strategy 2 (lines 74-92): parse the verb-stripped title with the three
author patterns in order. -/
def strategy2 (title : String) : Option String :=
  let title_clean := reSub true verbPhrasePat "" title
  match tryAuthorPattern authorPat1 title_clean with
  | some a => some a
  | none =>
    match tryAuthorPattern authorPat2 title_clean with
    | some a => some a
    | none => tryAuthorPattern authorPat3 title_clean

/-- Fuel-bounded split on a separator: model of Python `str.split(sep)`;
fuel at least the input length suffices since each split consumes the
separator. -/
def pySplitAux (sep : List Char) : Nat → List Char -> List (List Char)
  | 0, l => [l]
  | fuel + 1, l =>
    match splitFirst sep l with
    | some (a, b) => a :: pySplitAux sep fuel b
    | none => [l]

/-- Model of Python `str.split(sep)` for a nonempty separator. -/
def pySplitOn (s sep : String) : List String :=
  if sep = "" then [s]
  else (pySplitAux sep.data (s.data.length + 1) s.data).map String.mk

/-- Strategy 3 (lines 96-106): tag-strip the author field, drop a prefix
ending in an activity verb, and take what follows the last `" by "`. -/
def strategy3 (a : Option String) : Option String :=
  match a with
  | none => none
  | some au =>
    let author_text := reSub false tagPat "" au
    let author_text := reSubAnch true authorPrefixPat author_text
    if pyIn " by " author_text then
      let author_name := pyStrip ((pySplitOn author_text " by ").getLastD "")
      if author_name ≠ "" ∧ author_name.length > 1 ∧ author_name.length < 100 then
        some author_name
      else none
    else none

/-- Model of `extract_author_robust` (lines 56-111): the three strategies
tried in order, first success wins. -/
def extract_author_robust (e : FeedEntry) : Option String :=
  match strategy1 e.description with
  | some a => some a
  | none =>
    match strategy2 e.title with
    | some a => some a
    | none => strategy3 e.author

/-! ## Patterns of `extract_progress_from_entry` (app.py lines 113-170) -/

/-- Title pattern `(\d+)%`. -/
def progTitlePat1 : RE := RE.seq (RE.grp (plusG dC)) (RE.lit "%")

/-- Title pattern `is (\d+)% done`. -/
def progTitlePat2 : RE :=
  RE.seq (RE.lit "is ") (RE.seq (RE.grp (plusG dC)) (RE.lit "% done"))

/-- Title pattern `(\d+) percent`. -/
def progTitlePat3 : RE := RE.seq (RE.grp (plusG dC)) (RE.lit " percent")

/-- Title pattern `page (\d+) of (\d+)`. -/
def progTitlePat4 : RE :=
  RE.seq (RE.lit "page ")
    (RE.seq (RE.grp (plusG dC)) (RE.seq (RE.lit " of ") (RE.grp (plusG dC))))

/-- Title pattern `is on page (\d+) of (\d+)`. -/
def progTitlePat5 : RE :=
  RE.seq (RE.lit "is on page ")
    (RE.seq (RE.grp (plusG dC)) (RE.seq (RE.lit " of ") (RE.grp (plusG dC))))

/-- The ordered title patterns (lines 118-124). -/
def titleProgressPats : List RE :=
  [progTitlePat1, progTitlePat2, progTitlePat3, progTitlePat4, progTitlePat5]

/-- Description pattern `(\d+)%\s*(?:complete|done|finished|read)`. -/
def progDescPat1 : RE :=
  RE.seq (RE.grp (plusG dC))
    (RE.seq (RE.lit "%")
      (RE.seq (RE.star sC false)
        (RE.alt (RE.lit "complete")
          (RE.alt (RE.lit "done") (RE.alt (RE.lit "finished") (RE.lit "read"))))))

/-- Description pattern `(\d+)\s*percent`. -/
def progDescPat2 : RE :=
  RE.seq (RE.grp (plusG dC)) (RE.seq (RE.star sC false) (RE.lit "percent"))

/-- Description pattern `page\s+(\d+)\s+of\s+(\d+)`. -/
def progDescPat3 : RE :=
  RE.seq (RE.lit "page")
    (RE.seq (plusG sC)
      (RE.seq (RE.grp (plusG dC))
        (RE.seq (plusG sC)
          (RE.seq (RE.lit "of") (RE.seq (plusG sC) (RE.grp (plusG dC)))))))

/-- Description pattern `(\d+)\s*/\s*(\d+)\s*pages`. -/
def progDescPat4 : RE :=
  RE.seq (RE.grp (plusG dC))
    (RE.seq (RE.star sC false)
      (RE.seq (RE.lit "/")
        (RE.seq (RE.star sC false)
          (RE.seq (RE.grp (plusG dC)) (RE.seq (RE.star sC false) (RE.lit "pages"))))))

/-- Description pattern `progress:?\s*(\d+)%`. -/
def progDescPat5 : RE :=
  RE.seq (RE.lit "progress")
    (RE.seq (RE.opt (RE.lit ":"))
      (RE.seq (RE.star sC false) (RE.seq (RE.grp (plusG dC)) (RE.lit "%"))))

/-- The ordered description patterns (lines 146-152). -/
def descProgressPats : List RE :=
  [progDescPat1, progDescPat2, progDescPat3, progDescPat4, progDescPat5]

/-! ### IEEE-754 binary64 arithmetic of the progress computation

Line 137 computes `min(int((current / total) * 100), 100)` with Python
floats: `/` on two ints is the correctly rounded double quotient
(raising `OverflowError` when it exceeds the largest finite double),
`* 100` is a double multiplication (overflowing to infinity, on which
`int()` raises), and `int()` truncates.  The model scales every finite
nonnegative double by `2 ^ 1074`, making each one a natural number. -/

/-- Fuel-bounded binary digit count; fuel at least the argument always
suffices since the argument halves at each step. -/
def bitlenAux : Nat → Nat → Nat
  | 0, _ => 0
  | fuel + 1, n => if n = 0 then 0 else bitlenAux fuel (n / 2) + 1

/-- Number of binary digits of `n` (0 for 0). -/
def bitlen (n : Nat) : Nat := bitlenAux n n

/-- Round the rational `p / q` (`q > 0`) to the nearest integer, ties to
even (the IEEE-754 default rounding used by CPython float operations). -/
def rhe (p q : Nat) : Nat :=
  if 2 * (p % q) < q then p / q
  else if q < 2 * (p % q) then p / q + 1
  else if p / q % 2 = 0 then p / q else p / q + 1

/-- Round the nonnegative rational `p / q` (`q > 0`) onto the binary64
grid, round-to-nearest ties-to-even, in the `2 ^ 1074`-scaled view:
naturals below `2 ^ 53` are the subnormals and small normals (grid step
1), and each higher binade has grid step `2 ^ g` under a 53-bit
significand; `none` is overflow to infinity (a rounded magnitude of at
least `2 ^ 1024`, scaled `2 ^ 2098`). -/
def rndF (p q : Nat) : Option Nat :=
  let x := p / q
  if x < 2 ^ 53 then some (rhe p q)
  else
    let g := bitlen x - 53
    let F := rhe p (q * 2 ^ g) * 2 ^ g
    if F < 2 ^ 2098 then some F else none

/-- Python true division `a / b` of nonnegative integers (line 137): the
correctly rounded binary64 quotient in the scaled view; `none` models
the `OverflowError` CPython raises when the quotient exceeds the
largest finite double. -/
def floatDiv (a b : Nat) : Option Nat := rndF (a * 2 ^ 1074) b

/-- Binary64 multiplication of a scaled double by `100.0` (line 137);
`none` is overflow to infinity. -/
def floatMul100 (f : Nat) : Option Nat := rndF (100 * f) 1

/-- Python `int()` truncation of a nonnegative scaled double. -/
def floatTrunc (f : Nat) : Nat := f / 2 ^ 1074

/-- The two-group computation `min(int((current / total) * 100), 100)` of
lines 134-139 under Python float semantics; the two `OverflowError`s of
CPython (quotient too large for a float, and `int()` applied to the
infinite product) are the error cases. -/
def pyFloatPct (current total : Nat) : Except String Nat :=
  match floatDiv current total with
  | none => Except.error "OverflowError: integer division result too large for a float"
  | some f =>
    match floatMul100 f with
    | none => Except.error "OverflowError: cannot convert float infinity to integer"
    | some g => Except.ok (min (floatTrunc g) 100)

/-- One pattern attempt of the progress loop (lines 126-139, 154-167): a
one-group match is a direct percentage clamped to 100 (exact integer
arithmetic); a two-group match `(current, total)` with `total > 0` is
the float computation `min(int((current / total) * 100), 100)`, which
can raise `OverflowError` on astronomically large captures; a two-group
match with `total = 0` is skipped (the loop moves to the next pattern). -/
def applyProgressPattern (r : RE) (text : String) : Option (Except String Nat) :=
  match reSearch true r text with
  | some [g1] => some (Except.ok (min (pyInt g1) 100))
  | some [g1, g2] =>
    let current := pyInt g1
    let total := pyInt g2
    if total > 0 then some (pyFloatPct current total) else none
  | _ => none

/-- First pattern of the ordered list that produces a progress value (or
raises). -/
def firstProgress (pats : List RE) (text : String) : Option (Except String Nat) :=
  match pats with
  | [] => none
  | r :: rest =>
    match applyProgressPattern r text with
    | some p => some p
    | none => firstProgress rest text

/-- Model of `extract_progress_from_entry` (lines 113-170): title patterns
first, then description patterns on the visible text, default 0; an
`OverflowError` of the float computation propagates to the caller. -/
def extract_progress_from_entry (e : FeedEntry) : Except String Nat :=
  match firstProgress titleProgressPats e.title with
  | some p => p
  | none =>
    match e.description with
    | some d => (firstProgress descProgressPats (getText d)).getD (Except.ok 0)
    | none => Except.ok 0

/-! ## `normalize_book_title` (app.py lines 172-185) -/

/-- Subtitle pattern `[:\-–—].*$` (line 179). -/
def subtitlePat : RE := RE.seq (RE.cls dashC) (RE.seq (RE.star dotC false) RE.eos)

/-- Model of `normalize_book_title`: lowercase, strip the subtitle after
the first colon/dash, strip punctuation (`[^\w\s]`), collapse whitespace
runs to single spaces and strip. -/
def normalize_book_title (title : String) : String :=
  if title = "" then ""
  else
    let normalized := pyLower title
    let normalized := reSub false subtitlePat "" normalized
    let normalized := reSub false (RE.cls punctC) "" normalized
    let normalized := reSub false wsPat " " normalized
    pyStrip normalized

/-! ## Entry classification and collection (`find_all_book_entries`, app.py lines 187-269) -/

/-- Quoted-title pattern `'([^']+)'` (lines 218, 227, 243). -/
def quotedPat : RE := RE.seq (RE.lit qs) (RE.seq (RE.grp (plusG nqC)) (RE.lit qs))

/-- Fallback pattern of the progress-update branch (line 228):
`(?:is on page \d+ of \d+ of|is currently reading|updated (?:her|his) progress on|% done with)\s*(.+?)(?:\s*by|\s*$)`. -/
def progressFallbackPat : RE :=
  RE.seq
    (RE.alt
      (RE.seq (RE.lit "is on page ")
        (RE.seq (plusG dC) (RE.seq (RE.lit " of ") (RE.seq (plusG dC) (RE.lit " of")))))
      (RE.alt (RE.lit "is currently reading")
        (RE.alt
          (RE.seq (RE.lit "updated ")
            (RE.seq (RE.alt (RE.lit "her") (RE.lit "his")) (RE.lit " progress on")))
          (RE.lit "% done with"))))
    (RE.seq (RE.star sC false)
      (RE.seq (RE.grp (plusL dotC))
        (RE.alt (RE.seq (RE.star sC false) (RE.lit "by"))
          (RE.seq (RE.star sC false) RE.eos))))

/-- One parsed activity record (the `entry_data` dict of lines 254-261). -/
structure EntryData where
  entry : FeedEntry
  original_title : String
  progress : Nat
  type : String
  timestamp : Option String
  raw_rss_title : String
deriving Repr, DecidableEq

/-- Build the `entry_data` dict for a classified entry (lines 254-261). -/
def mkEntryData (e : FeedEntry) (bt : String) (p : Nat) (ty : String) : EntryData :=
  { entry := e, original_title := bt, progress := p, type := ty,
    timestamp := e.published, raw_rss_title := e.title }

/-- Classification of one feed entry (lines 208-248): the branch on trigger
phrases, returning `(book_title, progress, entry_type)` for entries that
are added to the collection and `none` for entries that are skipped; an
`OverflowError` raised by the progress extractor propagates. -/
def classifyEntry (e : FeedEntry) : Except String (Option (String × Nat × String)) :=
  let title_lower := pyLower e.title
  if pyIn "started reading" title_lower then
    match reSearch false quotedPat e.title with
    | some [t] => Except.ok (some (t, 0, "started"))
    | _ => Except.ok none
  else if pyIn "is on page" title_lower || pyIn "is currently reading" title_lower ||
      pyIn "updated her progress" title_lower || pyIn "% done" title_lower then
    let bt :=
      match reSearch true quotedPat e.title with
      | some [t] => some (pyStrip t)
      | _ =>
        match reSearch true progressFallbackPat e.title with
        | some [t] => some (pyStrip t)
        | _ => none
    match bt with
    | some t =>
      if t ≠ "" then
        match extract_progress_from_entry e with
        | Except.error msg => Except.error msg
        | Except.ok p => Except.ok (some (t, p, "progress_update"))
      else Except.ok none
    | none => Except.ok none
  else if pyIn "currently reading" title_lower then
    match reSearch false quotedPat e.title with
    | some [t] =>
      match extract_progress_from_entry e with
      | Except.error msg => Except.error msg
      | Except.ok p => Except.ok (some (t, p, "currently_reading"))
    | _ => Except.ok none
  else Except.ok none

/-- Append a record to the group of its normalized title, preserving the
insertion order of keys (the Python dict of line 263-266). -/
def addToGroups : List (String × List EntryData) → String → EntryData → List (String × List EntryData)
  | [], k, ed => [(k, [ed])]
  | (k2, es) :: t, k, ed =>
    if k2 = k then (k2, es ++ [ed]) :: t else (k2, es) :: addToGroups t k ed

/-- Walk the feed in order, classify and group (lines 208-269); the first
entry whose classification raises aborts the loop with that exception. -/
def collectEntries : List FeedEntry → List (String × List EntryData) →
    Except String (List (String × List EntryData))
  | [], gs => Except.ok gs
  | e :: rest, gs =>
    match classifyEntry e with
    | Except.error msg => Except.error msg
    | Except.ok none => collectEntries rest gs
    | Except.ok (some (bt, p, ty)) =>
      collectEntries rest (addToGroups gs (normalize_book_title bt) (mkEntryData e bt p ty))

/-- Model of `find_all_book_entries` (lines 187-269): empty when the feed
URL is not configured (`cfg = false`), otherwise the grouped records.
A failed or empty feed fetch is the `feed = []` case; only the fetch is
wrapped in `try`, so an exception of the classification loop escapes. -/
def find_all_book_entries (cfg : Bool) (feed : List FeedEntry) :
    Except String (List (String × List EntryData)) :=
  if cfg then collectEntries feed [] else Except.ok []

/-! ## `fetch_challenge_stats_enhanced` (app.py lines 271-379) -/

/-- RSS challenge pattern 1: `You have read (\d+) of (\d+) books`. -/
def chRss1 : RE :=
  RE.seq (RE.lit "You have read ")
    (RE.seq (RE.grp (plusG dC)) (RE.seq (RE.lit " of ") (RE.seq (RE.grp (plusG dC)) (RE.lit " books"))))

/-- RSS challenge pattern 2: `has read (\d+) of (\d+) books`. -/
def chRss2 : RE :=
  RE.seq (RE.lit "has read ")
    (RE.seq (RE.grp (plusG dC)) (RE.seq (RE.lit " of ") (RE.seq (RE.grp (plusG dC)) (RE.lit " books"))))

/-- RSS challenge pattern 3: `read (\d+) of (\d+) books`. -/
def chRss3 : RE :=
  RE.seq (RE.lit "read ")
    (RE.seq (RE.grp (plusG dC)) (RE.seq (RE.lit " of ") (RE.seq (RE.grp (plusG dC)) (RE.lit " books"))))

/-- RSS challenge pattern 4: `(\d+) of (\d+) books.*(?:challenge|goal|2025)`. -/
def chRss4 : RE :=
  RE.seq (RE.grp (plusG dC))
    (RE.seq (RE.lit " of ")
      (RE.seq (RE.grp (plusG dC))
        (RE.seq (RE.lit " books")
          (RE.seq (RE.star dotC false)
            (RE.alt (RE.lit "challenge") (RE.alt (RE.lit "goal") (RE.lit "2025")))))))

/-- RSS challenge pattern 5: `(\d+)/(\d+) books`. -/
def chRss5 : RE :=
  RE.seq (RE.grp (plusG dC))
    (RE.seq (RE.lit "/") (RE.seq (RE.grp (plusG dC)) (RE.lit " books")))

/-- RSS challenge pattern 6: `has read (\d+) books? toward.*?goal of (\d+) books?`. -/
def chRss6 : RE :=
  RE.seq (RE.lit "has read ")
    (RE.seq (RE.grp (plusG dC))
      (RE.seq (RE.lit " book")
        (RE.seq (RE.opt (RE.lit "s"))
          (RE.seq (RE.lit " toward")
            (RE.seq (RE.star dotC true)
              (RE.seq (RE.lit "goal of ")
                (RE.seq (RE.grp (plusG dC))
                  (RE.seq (RE.lit " book") (RE.opt (RE.lit "s"))))))))))

/-- The ordered RSS challenge patterns (lines 298-305). -/
def chRssPats : List RE := [chRss1, chRss2, chRss3, chRss4, chRss5, chRss6]

/-- Profile pattern 2: `(\d+) of (\d+) books.*?(?:ahead of schedule|behind|on track)`. -/
def chProf2 : RE :=
  RE.seq (RE.grp (plusG dC))
    (RE.seq (RE.lit " of ")
      (RE.seq (RE.grp (plusG dC))
        (RE.seq (RE.lit " books")
          (RE.seq (RE.star dotC true)
            (RE.alt (RE.lit "ahead of schedule") (RE.alt (RE.lit "behind") (RE.lit "on track")))))))

/-- Profile pattern 3: `2025.*?(\d+) of (\d+)`. -/
def chProf3 : RE :=
  RE.seq (RE.lit "2025")
    (RE.seq (RE.star dotC true)
      (RE.seq (RE.grp (plusG dC)) (RE.seq (RE.lit " of ") (RE.grp (plusG dC)))))

/-- Profile pattern 4: `(\d+) of (\d+) books`. -/
def chProf4 : RE :=
  RE.seq (RE.grp (plusG dC))
    (RE.seq (RE.lit " of ") (RE.seq (RE.grp (plusG dC)) (RE.lit " books")))

/-- Profile pattern 6: `read (\d+).*?of (\d+)`. -/
def chProf6 : RE :=
  RE.seq (RE.lit "read ")
    (RE.seq (RE.grp (plusG dC))
      (RE.seq (RE.star dotC true) (RE.seq (RE.lit "of ") (RE.grp (plusG dC)))))

/-- The ordered profile challenge patterns (lines 351-358); patterns 1 and
5 coincide with the RSS patterns. -/
def chProfilePats : List RE := [chRss1, chProf2, chProf3, chProf4, chRss5, chProf6]

/-- Display string `f"{books_read} of {books_goal} books"` (lines 315, 367). -/
def fmtChallenge (r g : Nat) : String := toString r ++ " of " ++ toString g ++ " books"

/-- One challenge pattern attempt with the plausibility filter
`0 <= books_read <= books_goal <= 500` (lines 307-320, 360-370); the
lower bound `0 ≤ books_read` is automatic for `Nat` captures of `\d+`. -/
def tryChallengePattern (r : RE) (text : String) : Option String :=
  match reSearch true r text with
  | some [g1, g2] =>
    let books_read := pyInt g1
    let books_goal := pyInt g2
    if books_read ≤ books_goal ∧ books_goal ≤ 500 then some (fmtChallenge books_read books_goal)
    else none
  | _ => none

/-- First accepted pattern of an ordered challenge pattern list. -/
def scanChallengePats (pats : List RE) (text : String) : Option String :=
  match pats with
  | [] => none
  | r :: rest =>
    match tryChallengePattern r text with
    | some s => some s
    | none => scanChallengePats rest text

/-- Scan the RSS items (descriptions, `none` when an item has no
description tag) with the RSS pattern cascade (lines 294-320). -/
def scanChallengeItems : List (Option String) → Option String
  | [] => none
  | none :: rest => scanChallengeItems rest
  | some d :: rest =>
    match scanChallengePats chRssPats (getText d) with
    | some s => some s
    | none => scanChallengeItems rest

/-- Model of `fetch_challenge_stats_enhanced` (lines 271-379).  I/O is
abstracted: `items` is the fetched RSS item-description list (`none` when
the request failed or returned non-200), `profile` the profile page HTML
(`none` on failure).  Returns the result together with the cache write
performed (`some w` when `update_challenge_cache w` was called). -/
def fetch_challenge_stats_enhanced (valid : Bool) (cached : Option String)
    (rssCfg : Bool) (items : Option (List (Option String)))
    (userCfg : Bool) (profile : Option String) :
    Option String × Option (Option String) :=
  if valid then (cached, none)
  else if ¬rssCfg then (none, none)
  else
    match items.bind scanChallengeItems with
    | some s => (some s, some (some s))
    | none =>
      if ¬userCfg then (none, none)
      else
        match profile.bind (fun html => scanChallengePats chProfilePats (getText html)) with
        | some s => (some s, some (some s))
        | none => (none, some none)

/-! ## Data fusion (`build_enhanced_book_data`, app.py lines 381-487) -/

/-- Cover pattern `src="(https://[^"]+\.jpg)"` (line 445). -/
def coverPat : RE :=
  RE.seq (RE.lit "src=\"")
    (RE.seq (RE.grp (RE.seq (RE.lit "https://") (RE.seq (plusG ndqC) (RE.lit ".jpg"))))
      (RE.lit "\""))

/-- Sort key `x['timestamp'] or ''` (line 396). -/
def tsKey (ed : EntryData) : String := ed.timestamp.getD ""

/-- Insert into a descending-sorted list, after entries with an equal key
(stability). -/
def insertDesc (x : EntryData) : List EntryData → List EntryData
  | [] => [x]
  | y :: ys => if sLt (tsKey y) (tsKey x) then x :: y :: ys else y :: insertDesc x ys

/-- Stable descending sort by timestamp key: model of
`sorted(entries, key=lambda x: x['timestamp'] or '', reverse=True)` (line 396). -/
def sortEntriesDesc (l : List EntryData) : List EntryData :=
  l.foldl (fun acc x => insertDesc x acc) []

/-- One step of the most-recent-group selection loop (lines 392-407); the
accumulator mirrors `(most_recent_book, most_recent_time)`. -/
def selStep (acc : Option (String × List EntryData) × Option String)
    (g : String × List EntryData) : Option (String × List EntryData) × Option String :=
  match sortEntriesDesc g.2 with
  | [] => acc
  | latest :: rest =>
    let et := latest.timestamp
    match acc.2 with
    | none => (some (g.1, latest :: rest), et)
    | some mrt =>
      match et with
      | none => acc
      | some s => if s ≠ "" ∧ sLt mrt s then (some (g.1, latest :: rest), some s) else acc

/-- Selection step of `build_enhanced_book_data` (lines 389-412): fold the
groups in dict (insertion) order. -/
def selectMostRecent (gs : List (String × List EntryData)) :
    Option (String × List EntryData) :=
  (gs.foldl selStep (none, none)).1

/-- State of the fusion loop (lines 415-419); `all_authors` holds the
contents of the Python author set in first-insertion order. -/
structure FuseState where
  best_progress : Nat
  best_progress_entry : Option EntryData
  best_metadata_entry : Option EntryData
  best_cover_url : Option String
  all_authors : List String
deriving Repr, DecidableEq

/-- Initial fusion state. -/
def initFuseState : FuseState :=
  { best_progress := 0, best_progress_entry := none, best_metadata_entry := none,
    best_cover_url := none, all_authors := [] }

/-- Progress part of the fusion loop body (lines 427-431). -/
def fuseProgressStep (st : FuseState) (ed : EntryData) : FuseState :=
  if ed.progress > st.best_progress ∨ (ed.progress > 0 ∧ st.best_progress = 0) then
    { st with best_progress := ed.progress, best_progress_entry := some ed }
  else st

/-- Metadata part of the fusion loop body (lines 433-436). -/
def fuseMetadataStep (st : FuseState) (ed : EntryData) : FuseState :=
  if ed.type = "started" ∧ st.best_metadata_entry = none then
    { st with best_metadata_entry := some ed }
  else st

/-- Author-collection part of the fusion loop body (lines 438-441): a
found author is added to the set. -/
def fuseAuthorStep (st : FuseState) (ed : EntryData) : FuseState :=
  match extract_author_robust ed.entry with
  | some a => if a ∈ st.all_authors then st else { st with all_authors := st.all_authors ++ [a] }
  | none => st

/-- Cover part of the fusion loop body (lines 443-448). -/
def fuseCoverStep (st : FuseState) (ed : EntryData) : FuseState :=
  match ed.entry.description with
  | some d =>
    match reSearch false coverPat d with
    | some [u] => if st.best_cover_url = none then { st with best_cover_url := some u } else st
    | _ => st
  | none => st

/-- One iteration of the fusion loop (lines 424-448): the four sequential
updates of the loop body. -/
def fuseStep (st : FuseState) (ed : EntryData) : FuseState :=
  fuseCoverStep (fuseAuthorStep (fuseMetadataStep (fuseProgressStep st ed) ed) ed) ed

/-- Python `max(iterable, key=len)`: the first element of maximal length
in iteration order. -/
def pyMaxByLen : List String → Option String
  | [] => none
  | x :: xs => some (xs.foldl (fun b a => if a.length > b.length then a else b) x)

/-- The fused record (the dict of lines 476-487).  The fallback dicts of
`fetch_book_data` omit `entry_types` and `selected_progress_entry`; they
are modelled with `[]` and `""`. -/
structure BookData where
  title : String
  author : String
  progress : Nat
  cover_url : Option String
  start_date : Option String
  update_date : Option String
  challenge : Option String
  entry_types : List String
  entries_count : Nat
  selected_progress_entry : String
deriving Repr, DecidableEq

/-- Fusion step of `build_enhanced_book_data` on the selected group
(lines 414-487).  `setEnum` is the iteration order of the Python author
set (hash-dependent): it receives the set contents in first-insertion
order and yields the order `max(all_authors, key=len)` iterates.
`challenge` is the result of `fetch_challenge_stats_enhanced` (line 468,
a collaborator with its own cache).  Python exceptions are
`Except.error`: `entries[0]` on an empty list raises `IndexError`
(line 451), and subscripting `best_progress_entry` while it is `None`
raises `TypeError` (line 454). -/
def fuseEntries (entries : List EntryData) (setEnum : List String → List String)
    (challenge : Option String) : Except String BookData :=
  let st := entries.foldl fuseStep initFuseState
  match (match st.best_metadata_entry with
         | some m => some m
         | none => entries.head?) with
  | none => Except.error "IndexError: list index out of range"
  | some bme =>
    match st.best_progress_entry with
    | none => Except.error "TypeError: NoneType is not subscriptable"
    | some bpe =>
      let best_title := entries.foldl
        (fun t ed => if ed.original_title.length > t.length then ed.original_title else t)
        bpe.original_title
      let best_author :=
        if st.all_authors.isEmpty then "Unknown Author"
        else (pyMaxByLen (setEnum st.all_authors)).getD "Unknown Author"
      Except.ok
        { title := best_title, author := best_author, progress := st.best_progress,
          cover_url := st.best_cover_url, start_date := bme.timestamp,
          update_date := bpe.timestamp, challenge := challenge,
          entry_types := entries.map (fun ed => ed.type), entries_count := entries.length,
          selected_progress_entry := bpe.raw_rss_title }

/-- Model of `build_enhanced_book_data` (lines 381-487): `none` for an
empty collection, otherwise selection followed by fusion. -/
def build_enhanced_book_data (gs : List (String × List EntryData))
    (setEnum : List String → List String) (challenge : Option String) :
    Except String (Option BookData) :=
  if gs.isEmpty then Except.ok none
  else
    match selectMostRecent gs with
    | none => Except.ok none
    | some (_, entries) => (fuseEntries entries setEnum challenge).map some

/-! ## Cache layer and `fetch_book_data` (app.py lines 20-48, 489-535) -/

/-- The book-data slots of the module cache (lines 21-28); time is in
minutes, matching `ttl_minutes` and `timedelta(minutes=...)`. -/
structure CacheSt where
  book_data : Option BookData
  timestamp : Option Int
  ttl_minutes : Int
deriving Repr, DecidableEq

/-- The initial cache (line 21-28): empty slots, TTL 5 minutes. -/
def initialCache : CacheSt := { book_data := none, timestamp := none, ttl_minutes := 5 }

/-- Model of `is_cache_valid` (lines 30-35): false when either slot is
unset, otherwise `now - timestamp < ttl`. -/
def is_cache_valid (c : CacheSt) (now : Int) : Bool :=
  match c.timestamp, c.book_data with
  | some t, some _ => decide (now - t < c.ttl_minutes)
  | _, _ => false

/-- Model of `update_cache` (lines 44-48): overwrite value and timestamp. -/
def update_cache (c : CacheSt) (bd : BookData) (now : Int) : CacheSt :=
  { c with book_data := some bd, timestamp := some now }

/-- The configuration-required record (lines 496-505). -/
def configRequiredBook : BookData :=
  { title := "Configuration Required", author := "Please update GOODREADS_RSS_URL in app.py",
    progress := 0, cover_url := none, start_date := none, update_date := none,
    challenge := some "Update your RSS URL to see challenge data", entry_types := [],
    entries_count := 0, selected_progress_entry := "" }

/-- The no-current-book fallback record (lines 523-532). -/
def fallbackBook : BookData :=
  { title := "No current book found", author := "Check Goodreads activity", progress := 0,
    cover_url := none, start_date := none, update_date := none, challenge := none,
    entry_types := [], entries_count := 0, selected_progress_entry := "" }

/-- Model of `fetch_book_data` (lines 489-535).  `cfg` is whether the RSS
URL is configured, `now` the current time in minutes, `feed` the fetched
feed.  The returned `Bool` records whether the entry collector (and with
it the fusion engine) was invoked on this call; an uncaught Python
exception is `Except.error`. -/
def fetch_book_data (cfg : Bool) (now : Int) (c : CacheSt) (feed : List FeedEntry)
    (setEnum : List String → List String) (challenge : Option String) :
    Except String (BookData × CacheSt × Bool) :=
  if ¬cfg then Except.ok (configRequiredBook, c, false)
  else if is_cache_valid c now then Except.ok (c.book_data.getD fallbackBook, c, false)
  else
    match find_all_book_entries cfg feed with
    | Except.error msg => Except.error msg
    | Except.ok book_entries =>
      if book_entries.isEmpty then
        Except.ok (fallbackBook, update_cache c fallbackBook now, true)
      else
        match build_enhanced_book_data book_entries setEnum challenge with
        | Except.error msg => Except.error msg
        | Except.ok (some bd) => Except.ok (bd, update_cache c bd now, true)
        | Except.ok none => Except.ok (fallbackBook, update_cache c fallbackBook now, true)

/-! ## Concrete inputs used by the claim theorems -/

/-- The spec scenario feed entry: title `started reading 'Project Hail Mary'`,
no description. -/
def phmEntry : FeedEntry :=
  { title := "started reading " ++ qs ++ "Project Hail Mary" ++ qs,
    description := none, author := none, published := some "Mon, 01 Jan 2024 10:00:00 +0000" }

/-- The activity record the collector builds for `phmEntry`:
kind `started`, progress 0. -/
def phmRecord : EntryData := mkEntryData phmEntry "Project Hail Mary" 0 "started"

/-- C1: the claim states that for every non-empty grouped collection —
including one whose selected group holds only progress-0 records, as in
the Project Hail Mary scenario — `build_enhanced_book_data` returns a
fused record without raising, so `fetch_book_data` never propagates an
exception.  On the code this is false: with every record at progress 0
the loop of lines 424-431 never sets `best_progress_entry`, and line 454
subscripts `None`, raising `TypeError`; `fetch_book_data` propagates it
to `serve_trmnl_data`.  This theorem evaluates the embedded code at that
failing input: the collector produces exactly the scenario record, and
both `build_enhanced_book_data` and `fetch_book_data` raise. -/
theorem C1_zero_progress_group_raises :
    find_all_book_entries true [phmEntry] = Except.ok [("project hail mary", [phmRecord])] ∧
    phmRecord.progress = 0 ∧ phmRecord.type = "started" ∧
    phmRecord.original_title = "Project Hail Mary" ∧
    build_enhanced_book_data [("project hail mary", [phmRecord])] id none =
      Except.error "TypeError: NoneType is not subscriptable" ∧
    fetch_book_data true 0 initialCache [phmEntry] id none =
      Except.error "TypeError: NoneType is not subscriptable" :=
  ⟨rfl, rfl, rfl, rfl, rfl, rfl⟩

/-- First of two groups with no timestamps at all (for C2). -/
def c2recA : EntryData :=
  mkEntryData { title := "x", description := none, author := none, published := none }
    "Aaa" 5 "progress_update"

/-- Second of two groups with no timestamps at all (for C2). -/
def c2recB : EntryData :=
  mkEntryData { title := "y", description := none, author := none, published := none }
    "Bbb" 7 "progress_update"

/-- C2 counterexample: when no record of any group has a timestamp, the
claim says the **first** group encountered is kept.  On the code
`most_recent_time` stays `None`, so the condition of line 404 holds for
every group and each later group replaces the earlier one: the **last**
group is kept.  Here both groups are timestamp-free and the selection
returns the second group `"bbb"`, not the first group `"aaa"`. -/
theorem C2_counterexample :
    c2recA.timestamp = none ∧ c2recB.timestamp = none ∧
    selectMostRecent [("aaa", [c2recA]), ("bbb", [c2recB])] = some ("bbb", [c2recB]) ∧
    ("bbb" : String) ≠ "aaa" := by
  refine ⟨rfl, rfl, rfl, by decide⟩

/-- Feed entry whose author field yields the candidate `"Ann Lee"` (for C4). -/
def c4e1 : FeedEntry :=
  { title := "started reading " ++ qs ++ "Some Book" ++ qs,
    description := none, author := some "x by Ann Lee", published := some "T1" }

/-- Feed entry whose author field yields the candidate `"Bob Fox"` (for C4). -/
def c4e2 : FeedEntry :=
  { title := "Jane is on page 40 of 100 of " ++ qs ++ "Some Book" ++ qs,
    description := none, author := some "x by Bob Fox", published := some "T2" }

/-- The grouped collection with two author candidates of equal length, as
produced by the (non-raising) collector on the two feed entries. -/
def c4groups : List (String × List EntryData) :=
  (find_all_book_entries true [c4e1, c4e2]).toOption.getD []

set_option maxRecDepth 8192 in
/-- C4 counterexample: fusion is claimed deterministic including the
author picked when several candidate names share the maximal length.  On
the code `best_author = max(all_authors, key=len)` iterates a Python
`set`, whose order is hash-dependent and varies between interpreter runs
(string hashing is randomized per process).  Modelling the set iteration
order as the parameter `setEnum`: the same grouped collection with two
equal-length candidates yields author `"Bob Fox"` under one enumeration
of the set and `"Ann Lee"` under another (both enumerations are
permutations of the same two-element set), so the fused author is not
determined by the records and timestamps alone. -/
theorem C4_counterexample :
    (build_enhanced_book_data c4groups id none).map (Option.map BookData.author) =
      Except.ok (some "Bob Fox") ∧
    (build_enhanced_book_data c4groups List.reverse none).map (Option.map BookData.author) =
      Except.ok (some "Ann Lee") ∧
    List.Perm (List.reverse ["Bob Fox", "Ann Lee"]) ["Bob Fox", "Ann Lee"] ∧
    ("Bob Fox" : String).length = ("Ann Lee" : String).length ∧
    ("Bob Fox" : String) ≠ "Ann Lee" := by
  refine ⟨rfl, rfl, by decide, by decide, by decide⟩

/-- A 120-character author name (for C5). -/
def c5name : String := String.mk (List.replicate 120 'N')

/-- Entry whose description holds an author-profile link with a
120-character link text (for C5). -/
def c5entry : FeedEntry :=
  { title := "t",
    description := some ("<a href=\"/author/show/1\">" ++ c5name ++ "</a>"),
    author := none, published := none }

set_option maxRecDepth 8192 in
/-- C5 counterexample: the claim says every tier only returns a candidate
whose length is strictly between 1 and 100.  Tier 1 (lines 61-71) checks
only `len > 1` and `!= "Unknown Author"` — it has no upper bound — so a
120-character link text is returned unchanged. -/
theorem C5_counterexample :
    extract_author_robust c5entry = some c5name ∧
    c5name.length = 120 ∧ ¬(c5name.length < 100) := by
  refine ⟨rfl, by decide, by decide⟩

/-- An entry matching the `started reading` trigger with no single-quoted
substring in its title (for C6). -/
def c6entry : FeedEntry :=
  { title := "Alice started reading Project Hail Mary",
    description := none, author := none, published := some "T1" }

/-- C6 counterexample: the claim says that for every trigger-matched
category, when no single-quoted substring is present the classifier
falls back to a verb-stripped suffix pattern rather than dropping the
entry.  On the code only the progress-update branch (lines 225-240) has
a fallback pattern; the `started reading` branch (lines 217-223) tries
only the quoted pattern, so this trigger-matched entry is dropped. -/
theorem C6_counterexample :
    pyIn "started reading" (pyLower c6entry.title) = true ∧
    classifyEntry c6entry = Except.ok none ∧
    find_all_book_entries true [c6entry] = Except.ok [] := by
  refine ⟨by decide, rfl, rfl⟩

/-! ## C8: cache gating -/

/-- C8: with the feed URL configured and a prior cache write at time `t`
(both slots set), cache validity is exactly `now - t < ttl`; a call while
that predicate holds returns the cached value unchanged without invoking
the entry collector or the fusion engine (third component `false`), and a
call at or after TTL expiry always re-runs them (third component `true`
on every non-raising path). -/
theorem C8_cache_gating (c : CacheSt) (now t : Int) (d : BookData)
    (feed : List FeedEntry) (enum : List String → List String) (ch : Option String)
    (h1 : c.timestamp = some t) (h2 : c.book_data = some d) :
    (is_cache_valid c now = decide (now - t < c.ttl_minutes)) ∧
    (now - t < c.ttl_minutes →
      fetch_book_data true now c feed enum ch = Except.ok (d, c, false)) ∧
    (c.ttl_minutes ≤ now - t →
      (∃ msg, fetch_book_data true now c feed enum ch = Except.error msg) ∨
      (∃ bd c2, fetch_book_data true now c feed enum ch = Except.ok (bd, c2, true))) := by
  have hv : is_cache_valid c now = decide (now - t < c.ttl_minutes) := by
    unfold is_cache_valid
    rw [h1, h2]
  refine ⟨hv, ?_, ?_⟩
  · intro hlt
    unfold fetch_book_data
    rw [hv]
    simp [hlt, h2]
  · intro hge
    have hvf : is_cache_valid c now = false := by
      rw [hv]
      simp only [decide_eq_false_iff_not, not_lt]
      exact hge
    unfold fetch_book_data
    rw [hvf]
    simp only [Bool.not_true, if_false, if_true, ite_false, ite_true]
    cases hf : find_all_book_entries true feed with
    | error msg => exact Or.inl ⟨msg, by simp [hf]⟩
    | ok book_entries =>
      by_cases he : book_entries.isEmpty
      · exact Or.inr ⟨fallbackBook, update_cache c fallbackBook now, by simp [hf, he]⟩
      · cases hb : build_enhanced_book_data book_entries enum ch with
        | error msg => exact Or.inl ⟨msg, by simp [hf, he, hb]⟩
        | ok ob =>
          cases ob with
          | none =>
            exact Or.inr ⟨fallbackBook, update_cache c fallbackBook now, by simp [hf, he, hb]⟩
          | some bd => exact Or.inr ⟨bd, update_cache c bd now, by simp [hf, he, hb]⟩

/-- A concrete cache written at time 100 holding the fallback record. -/
def c8cache : CacheSt := { book_data := some fallbackBook, timestamp := some 100, ttl_minutes := 5 }

/-- Witness for C8 at a concrete cache state: at `now = 104` (age 4 < 5)
the cached value is returned with the collector not invoked; at
`now = 105` (age 5, TTL expired) the collector is invoked again. -/
theorem C8_cache_gating_witness :
    is_cache_valid c8cache 104 = true ∧
    fetch_book_data true 104 c8cache [] id none = Except.ok (fallbackBook, c8cache, false) ∧
    (∃ bd c2, fetch_book_data true 105 c8cache [] id none = Except.ok (bd, c2, true)) := by
  have h4 := C8_cache_gating c8cache 104 100 fallbackBook [] id none rfl rfl
  have h5 := C8_cache_gating c8cache 105 100 fallbackBook [] id none rfl rfl
  refine ⟨by rw [h4.1]; decide, h4.2.1 (by decide), ?_⟩
  rcases h5.2.2 (by decide) with ⟨msg, hm⟩ | hok
  · have : fetch_book_data true 105 c8cache [] id none =
        Except.ok (fallbackBook, update_cache c8cache fallbackBook 105, true) := rfl
    rw [this] at hm
    exact absurd hm (by simp)
  · exact hok

/-! ## C9: progress clamping -/

/-- Characterization of the fuel-bounded digit count: with enough fuel,
a positive `n` lies in the binade of its bit length. -/
theorem bitlenAux_spec : ∀ (fuel n : Nat), n ≤ fuel → 1 ≤ n →
    2 ^ (bitlenAux fuel n - 1) ≤ n ∧ n < 2 ^ bitlenAux fuel n := by
  intro fuel
  induction fuel with
  | zero => intro n hn h1; omega
  | succ fuel ih =>
    intro n hn h1
    show 2 ^ ((if n = 0 then 0 else bitlenAux fuel (n / 2) + 1) - 1) ≤ n ∧
      n < 2 ^ (if n = 0 then 0 else bitlenAux fuel (n / 2) + 1)
    rw [if_neg (by omega : ¬n = 0)]
    by_cases h2 : n / 2 = 0
    · have hn1 : n = 1 := by omega
      subst hn1
      have hz : (1 : Nat) / 2 = 0 := rfl
      have hb0 : bitlenAux fuel 0 = 0 := by
        cases fuel with
        | zero => rfl
        | succ f =>
          show (if (0 : Nat) = 0 then 0 else bitlenAux f (0 / 2) + 1) = 0
          rw [if_pos rfl]
      rw [hz, hb0]
      norm_num
    · have hd : n / 2 ≤ fuel := by omega
      have h12 : 1 ≤ n / 2 := by omega
      obtain ⟨hl, hr⟩ := ih (n / 2) hd h12
      have hL1 : 1 ≤ bitlenAux fuel (n / 2) := by
        by_contra hc
        have hz : bitlenAux fuel (n / 2) = 0 := by omega
        rw [hz] at hr
        omega
      constructor
      · have he : 2 ^ (bitlenAux fuel (n / 2) + 1 - 1) = 2 * 2 ^ (bitlenAux fuel (n / 2) - 1) := by
          rw [show bitlenAux fuel (n / 2) + 1 - 1 = (bitlenAux fuel (n / 2) - 1) + 1 by omega,
            pow_succ]
          ring
        rw [he]
        omega
      · rw [pow_succ]
        omega

/-- A positive number lies in the binade of its bit length. -/
theorem bitlen_spec (n : Nat) (h1 : 1 ≤ n) :
    2 ^ (bitlen n - 1) ≤ n ∧ n < 2 ^ bitlen n :=
  bitlenAux_spec n n (Nat.le_refl n) h1

/-- Rounding to nearest never goes below the floor. -/
theorem rhe_ge_div (p q : Nat) : p / q ≤ rhe p q := by
  unfold rhe
  split
  · exact Nat.le_refl _
  · split
    · exact Nat.le_succ _
    · split
      · exact Nat.le_refl _
      · exact Nat.le_succ _

/-- A rounded quotient is at least any grid-aligned bound below the exact
quotient: if `c * 2 ^ k ≤ p / q` with a 53-bit `c`, the binary64
rounding of `p / q` is at least `c * 2 ^ k`. -/
theorem rndF_ge (p q c k F : Nat) (hq : 0 < q) (hc : c ≤ 2 ^ 53)
    (hcp : c * 2 ^ k * q ≤ p) (hF : rndF p q = some F) : c * 2 ^ k ≤ F := by
  unfold rndF at hF
  by_cases hx : p / q < 2 ^ 53
  · rw [if_pos hx] at hF
    simp only [Option.some.injEq] at hF
    calc c * 2 ^ k ≤ p / q := (Nat.le_div_iff_mul_le hq).mpr hcp
      _ ≤ rhe p q := rhe_ge_div p q
      _ = F := hF
  · rw [if_neg hx] at hF
    by_cases hov : rhe p (q * 2 ^ (bitlen (p / q) - 53)) * 2 ^ (bitlen (p / q) - 53) < 2 ^ 2098
    · rw [if_pos hov] at hF
      simp only [Option.some.injEq] at hF
      have hx53 : 2 ^ 53 ≤ p / q := Nat.le_of_not_lt hx
      have hx1 : 1 ≤ p / q := le_trans (Nat.one_le_two_pow) hx53
      obtain ⟨hbl, hbu⟩ := bitlen_spec (p / q) hx1
      have hL54 : 54 ≤ bitlen (p / q) := by
        by_contra hcl
        have hle : bitlen (p / q) ≤ 53 := by omega
        have : p / q < 2 ^ 53 :=
          lt_of_lt_of_le hbu (Nat.pow_le_pow_right (by norm_num) hle)
        exact hx this
      have hg52 : bitlen (p / q) - 1 = (bitlen (p / q) - 53) + 52 := by omega
      have hlow : 2 ^ ((bitlen (p / q) - 53) + 52) ≤ p / q := by
        rw [← hg52]
        exact hbl
      have hlowp : 2 ^ ((bitlen (p / q) - 53) + 52) * q ≤ p :=
        (Nat.le_div_iff_mul_le hq).mp hlow
      have hq2 : 0 < q * 2 ^ (bitlen (p / q) - 53) :=
        Nat.mul_pos hq (Nat.pos_pow_of_pos _ (by norm_num))
      have hrge := rhe_ge_div p (q * 2 ^ (bitlen (p / q) - 53))
      by_cases hgk : bitlen (p / q) - 53 ≤ k
      · have hstep : c * 2 ^ (k - (bitlen (p / q) - 53)) * (q * 2 ^ (bitlen (p / q) - 53)) ≤ p := by
          have heq : c * 2 ^ (k - (bitlen (p / q) - 53)) * (q * 2 ^ (bitlen (p / q) - 53)) =
              c * 2 ^ k * q := by
            rw [show (2 : Nat) ^ k = 2 ^ (k - (bitlen (p / q) - 53)) * 2 ^ (bitlen (p / q) - 53) by
              rw [← pow_add]
              congr 1
              omega]
            ring
          rw [heq]
          exact hcp
        have h2 : c * 2 ^ (k - (bitlen (p / q) - 53)) ≤ p / (q * 2 ^ (bitlen (p / q) - 53)) :=
          (Nat.le_div_iff_mul_le hq2).mpr hstep
        calc c * 2 ^ k
            = c * 2 ^ (k - (bitlen (p / q) - 53)) * 2 ^ (bitlen (p / q) - 53) := by
              rw [mul_assoc, ← pow_add]
              congr 2
              omega
          _ ≤ (p / (q * 2 ^ (bitlen (p / q) - 53))) * 2 ^ (bitlen (p / q) - 53) :=
              Nat.mul_le_mul_right _ h2
          _ ≤ rhe p (q * 2 ^ (bitlen (p / q) - 53)) * 2 ^ (bitlen (p / q) - 53) :=
              Nat.mul_le_mul_right _ hrge
          _ = F := hF
      · have h52 : 2 ^ 52 * (q * 2 ^ (bitlen (p / q) - 53)) ≤ p := by
          have heq : 2 ^ 52 * (q * 2 ^ (bitlen (p / q) - 53)) =
              2 ^ ((bitlen (p / q) - 53) + 52) * q := by
            rw [pow_add]
            ring
          rw [heq]
          exact hlowp
        have h2 : 2 ^ 52 ≤ p / (q * 2 ^ (bitlen (p / q) - 53)) :=
          (Nat.le_div_iff_mul_le hq2).mpr h52
        calc c * 2 ^ k ≤ 2 ^ 53 * 2 ^ k := Nat.mul_le_mul_right _ hc
          _ = 2 ^ (53 + k) := by rw [pow_add]
          _ ≤ 2 ^ (52 + (bitlen (p / q) - 53)) := Nat.pow_le_pow_right (by norm_num) (by omega)
          _ = 2 ^ 52 * 2 ^ (bitlen (p / q) - 53) := by rw [pow_add]
          _ ≤ (p / (q * 2 ^ (bitlen (p / q) - 53))) * 2 ^ (bitlen (p / q) - 53) :=
              Nat.mul_le_mul_right _ h2
          _ ≤ rhe p (q * 2 ^ (bitlen (p / q) - 53)) * 2 ^ (bitlen (p / q) - 53) :=
              Nat.mul_le_mul_right _ hrge
          _ = F := hF
    · rw [if_neg hov] at hF
      exact absurd hF (by simp)

/-- A non-overflowing float quotient of `a / b` with `a ≥ b` is at least
`1.0` (scaled `2 ^ 1074`). -/
theorem floatDiv_ge_one (a b f : Nat) (hb : 0 < b) (hba : b ≤ a)
    (h : floatDiv a b = some f) : 2 ^ 1074 ≤ f := by
  have hcp : 1 * 2 ^ 1074 * b ≤ a * 2 ^ 1074 := by
    calc 1 * 2 ^ 1074 * b = b * 2 ^ 1074 := by ring
      _ ≤ a * 2 ^ 1074 := Nat.mul_le_mul_right _ hba
  have h2 := rndF_ge (a * 2 ^ 1074) b 1 1074 f hb (by norm_num) hcp h
  calc (2 : Nat) ^ 1074 = 1 * 2 ^ 1074 := (one_mul _).symm
    _ ≤ f := h2

/-- A non-overflowing product `q * 100.0` with `q ≥ 1.0` is at least
`100.0` (scaled `2 ^ 1074`). -/
theorem floatMul100_ge (f g : Nat) (hf : 2 ^ 1074 ≤ f)
    (h : floatMul100 f = some g) : 100 * 2 ^ 1074 ≤ g := by
  refine rndF_ge (100 * f) 1 100 1074 g (by norm_num) (by norm_num) ?_ h
  calc 100 * 2 ^ 1074 * 1 = 100 * 2 ^ 1074 := by ring
    _ ≤ 100 * f := Nat.mul_le_mul_left _ hf

/-- Every non-raising float progress value is at most 100. -/
theorem pyFloatPct_le (c t p : Nat) (h : pyFloatPct c t = Except.ok p) : p ≤ 100 := by
  unfold pyFloatPct at h
  cases h1 : floatDiv c t with
  | none => rw [h1] at h; exact absurd h (by simp)
  | some f =>
    rw [h1] at h
    have h3 : (match floatMul100 f with
      | none => Except.error "OverflowError: cannot convert float infinity to integer"
      | some g => Except.ok (min (floatTrunc g) 100)) = Except.ok p := h
    cases h2 : floatMul100 f with
    | none =>
      rw [h2] at h3
      have h4 : Except.error "OverflowError: cannot convert float infinity to integer" =
          (Except.ok p : Except String Nat) := h3
      exact absurd h4 (by simp)
    | some g =>
      rw [h2] at h3
      have h4 : Except.ok (min (floatTrunc g) 100) = (Except.ok p : Except String Nat) := h3
      simp only [Except.ok.injEq] at h4
      exact h4 ▸ Nat.min_le_right (floatTrunc g) 100

set_option maxRecDepth 262144 in
/-- When `current ≥ total`, a non-raising float progress value is exactly
100: the rounded quotient is at least `1.0`, the rounded product at
least `100.0`, its truncation at least 100, and the clamp gives 100. -/
theorem pyFloatPct_over (c t p : Nat) (ht : 0 < t) (htc : t ≤ c)
    (h : pyFloatPct c t = Except.ok p) : p = 100 := by
  unfold pyFloatPct at h
  cases h1 : floatDiv c t with
  | none => rw [h1] at h; exact absurd h (by simp)
  | some f =>
    rw [h1] at h
    have h3 : (match floatMul100 f with
      | none => Except.error "OverflowError: cannot convert float infinity to integer"
      | some g => Except.ok (min (floatTrunc g) 100)) = Except.ok p := h
    cases h2 : floatMul100 f with
    | none =>
      rw [h2] at h3
      have h4 : Except.error "OverflowError: cannot convert float infinity to integer" =
          (Except.ok p : Except String Nat) := h3
      exact absurd h4 (by simp)
    | some g =>
      rw [h2] at h3
      have h4 : Except.ok (min (floatTrunc g) 100) = (Except.ok p : Except String Nat) := h3
      simp only [Except.ok.injEq] at h4
      have hf1 := floatDiv_ge_one c t f ht htc h1
      have hg := floatMul100_ge f g hf1 h2
      have hdiv : 100 ≤ g / 2 ^ 1074 :=
        (Nat.le_div_iff_mul_le (Nat.two_pow_pos 1074)).mpr hg
      have h100 : 100 ≤ floatTrunc g := hdiv
      rw [← h4, Nat.min_eq_right h100]

/-- Every accepted pattern value that does not raise is at most 100. -/
theorem applyProgressPattern_le (r : RE) (t : String) (p : Nat)
    (h : applyProgressPattern r t = some (Except.ok p)) : p ≤ 100 := by
  unfold applyProgressPattern at h
  cases hr : reSearch true r t with
  | none => rw [hr] at h; exact absurd h (by simp)
  | some caps =>
    rw [hr] at h
    match caps with
    | [] => exact absurd h (by simp)
    | [g1] =>
      simp only [Option.some.injEq, Except.ok.injEq] at h
      exact h ▸ Nat.min_le_right (pyInt g1) 100
    | [g1, g2] =>
      simp only at h
      split at h
      · simp only [Option.some.injEq] at h
        exact pyFloatPct_le _ _ p h
      · exact absurd h (by simp)
    | _ :: _ :: _ :: _ => exact absurd h (by simp)

/-- The pattern cascade only produces non-raising values at most 100. -/
theorem firstProgress_le (pats : List RE) (t : String) (p : Nat)
    (h : firstProgress pats t = some (Except.ok p)) : p ≤ 100 := by
  induction pats with
  | nil => exact absurd h (by simp [firstProgress])
  | cons r rest ih =>
    unfold firstProgress at h
    cases ha : applyProgressPattern r t with
    | some q =>
      rw [ha] at h
      simp only [Option.some.injEq] at h
      exact applyProgressPattern_le r t p (h ▸ ha)
    | none =>
      rw [ha] at h
      exact ih h

/-- The Jane scenario entry of the spec. -/
def janeEntry : FeedEntry :=
  { title := "Jane is on page 150 of 300 of " ++ qs ++ "Dune" ++ qs,
    description := none, author := none, published := none }

/-- The progress value the claim asserts for a two-group match: the exact
rational floor `(current * 100) / total` clamped to 100.  This follows
the claim wording, for comparison with the float computation of the
source. -/
def specFloorPct (current total : Nat) : Nat := min (current * 100 / total) 100

/-- Title `"Bob is on page 29 of 100 of 'Dune'"` (C9 counterexample). -/
def c9entry : FeedEntry :=
  { title := "Bob is on page 29 of 100 of " ++ qs ++ "Dune" ++ qs,
    description := none, author := none, published := none }

set_option maxRecDepth 262144 in
/-- C9 counterexample: the claim says a two-group match `(current, total)`
with `total > 0` yields the exact floor of `current / total * 100`.  The
code computes `min(int((current / total) * 100), 100)` with Python
floats: at `(29, 100)` the double nearest `29/100` is slightly below
`0.29`, the product `* 100` rounds to `28.999999999999996`, and `int()`
truncates to 28 — while the exact floor of the claim is 29. -/
theorem C9_counterexample :
    pyFloatPct 29 100 = Except.ok 28 ∧
    extract_progress_from_entry c9entry = Except.ok 28 ∧
    specFloorPct 29 100 = 29 ∧ (28 : Nat) ≠ 29 := by
  refine ⟨rfl, rfl, by decide, by decide⟩

set_option maxRecDepth 262144 in
/-- C9 (amended): every progress value the extractor returns without
raising lies in `[0, 100]`.  A match with two numeric groups
`(current, total)` and `total > 0` runs the float computation
`min(int((current / total) * 100), 100)`: whenever the floats do not
overflow the result is at most 100, and `current ≥ total` still yields
exactly 100, not an error; only astronomically large captures (quotient
beyond the largest finite double) raise `OverflowError`.  A one-group
match yields the exact number clamped to 100, and the Jane scenario
title yields 50. -/
theorem C9_progress_clamped :
    (∀ (e : FeedEntry) (p : Nat), extract_progress_from_entry e = Except.ok p → p ≤ 100) ∧
    (∀ (r : RE) (t g1 g2 : String), reSearch true r t = some [g1, g2] → 0 < pyInt g2 →
      applyProgressPattern r t = some (pyFloatPct (pyInt g1) (pyInt g2)) ∧
      (∀ p, pyFloatPct (pyInt g1) (pyInt g2) = Except.ok p → p ≤ 100) ∧
      (pyInt g2 ≤ pyInt g1 →
        ∀ p, pyFloatPct (pyInt g1) (pyInt g2) = Except.ok p → p = 100)) ∧
    (∀ (r : RE) (t g : String), reSearch true r t = some [g] →
      applyProgressPattern r t = some (Except.ok (min (pyInt g) 100))) ∧
    extract_progress_from_entry janeEntry = Except.ok 50 := by
  refine ⟨?_, ?_, ?_, rfl⟩
  · intro e p h
    unfold extract_progress_from_entry at h
    cases h1 : firstProgress titleProgressPats e.title with
    | some pp =>
      rw [h1] at h
      have h2 : pp = Except.ok p := h
      exact firstProgress_le _ _ _ (h2 ▸ h1)
    | none =>
      rw [h1] at h
      cases hd : e.description with
      | none =>
        rw [hd] at h
        have h2 : Except.ok 0 = Except.ok p := h
        simp only [Except.ok.injEq] at h2
        omega
      | some d =>
        rw [hd] at h
        have h2 : (firstProgress descProgressPats (getText d)).getD (Except.ok 0) =
            Except.ok p := h
        cases h3 : firstProgress descProgressPats (getText d) with
        | some pp =>
          rw [h3] at h2
          simp only [Option.getD_some] at h2
          exact firstProgress_le _ _ _ (h2 ▸ h3)
        | none =>
          rw [h3] at h2
          simp only [Option.getD_none, Except.ok.injEq] at h2
          omega
  · intro r t g1 g2 hr hpos
    refine ⟨?_, fun p => pyFloatPct_le _ _ p,
      fun hge p => pyFloatPct_over _ _ p hpos hge⟩
    unfold applyProgressPattern
    rw [hr]
    simp [hpos]
  · intro r t g hr
    unfold applyProgressPattern
    rw [hr]

set_option maxRecDepth 262144 in
/-- Witness for C9: the Jane scenario title matches `page (\d+) of (\d+)`
as `(150, 300)` and yields exactly 50 (the quotient `0.5` is an exact
double); an over-total `(400, 300)` match clamps to 100 with no error. -/
theorem C9_progress_clamped_witness :
    applyProgressPattern progTitlePat4 janeEntry.title = some (Except.ok 50) ∧
    applyProgressPattern progTitlePat4 ("is on page 400 of 300 of " ++ qs ++ "X" ++ qs) =
      some (Except.ok 100) ∧
    extract_progress_from_entry janeEntry = Except.ok 50 := by
  have h1 := C9_progress_clamped.2.1 progTitlePat4 janeEntry.title "150" "300"
    (by decide) (by decide)
  have h2 := C9_progress_clamped.2.1 progTitlePat4
    ("is on page 400 of 300 of " ++ qs ++ "X" ++ qs) "400" "300" (by decide) (by decide)
  have h2over := h2.2.2 (by decide) 100 (by rfl)
  exact ⟨h1.1.trans (by rfl), h2.1.trans (by rfl), C9_progress_clamped.2.2.2⟩

/-! ## C7: challenge plausibility -/

/-- Shape of a well-formed challenge string. -/
def ChallengeShape (s : String) : Prop :=
  ∃ X Y, X ≤ Y ∧ Y ≤ 500 ∧ s = fmtChallenge X Y

/-- A single accepted challenge match satisfies the plausibility bounds. -/
theorem tryChallengePattern_shape (r : RE) (t s : String)
    (h : tryChallengePattern r t = some s) : ChallengeShape s := by
  unfold tryChallengePattern at h
  cases hr : reSearch true r t with
  | none => rw [hr] at h; exact absurd h (by simp)
  | some caps =>
    rw [hr] at h
    match caps with
    | [] => exact absurd h (by simp)
    | [g1] => exact absurd h (by simp)
    | [g1, g2] =>
      simp only at h
      split at h
      · next hcond =>
        simp only [Option.some.injEq] at h
        exact ⟨pyInt g1, pyInt g2, hcond.1, hcond.2, h.symm⟩
      · exact absurd h (by simp)
    | _ :: _ :: _ :: _ => exact absurd h (by simp)

/-- A pattern-cascade result satisfies the plausibility bounds. -/
theorem scanChallengePats_shape (pats : List RE) (t s : String)
    (h : scanChallengePats pats t = some s) : ChallengeShape s := by
  induction pats with
  | nil => exact absurd h (by simp [scanChallengePats])
  | cons r rest ih =>
    unfold scanChallengePats at h
    cases ha : tryChallengePattern r t with
    | some q =>
      rw [ha] at h
      simp only [Option.some.injEq] at h
      exact h ▸ tryChallengePattern_shape r t q ha
    | none =>
      rw [ha] at h
      exact ih h

/-- An item-scan result satisfies the plausibility bounds. -/
theorem scanChallengeItems_shape (items : List (Option String)) (s : String)
    (h : scanChallengeItems items = some s) : ChallengeShape s := by
  induction items with
  | nil => exact absurd h (by simp [scanChallengeItems])
  | cons it rest ih =>
    cases it with
    | none => exact ih h
    | some d =>
      unfold scanChallengeItems at h
      cases ha : scanChallengePats chRssPats (getText d) with
      | some q =>
        rw [ha] at h
        simp only [Option.some.injEq] at h
        exact h ▸ scanChallengePats_shape _ _ q ha
      | none =>
        rw [ha] at h
        exact ih h

/-- C7: provided every previously cached value is well-formed, every
non-`none` value `fetch_challenge_stats_enhanced` returns satisfies
`s = "X of Y books"` with `0 ≤ X ≤ Y ≤ 500` (the lower bound is inherent
to `Nat`), and so does every value it writes to the challenge cache; and
the concrete implausible RSS match `read=10, goal=5` is discarded, the
cascade continuing to the profile strategy and returning its valid
`"12 of 30 books"`. -/
theorem C7_challenge_plausible (valid : Bool) (cached : Option String) (rssCfg : Bool)
    (items : Option (List (Option String))) (userCfg : Bool) (profile : Option String)
    (hc : ∀ s, cached = some s → ChallengeShape s) :
    (∀ s, (fetch_challenge_stats_enhanced valid cached rssCfg items userCfg profile).1 = some s →
      ChallengeShape s) ∧
    (∀ s, (fetch_challenge_stats_enhanced valid cached rssCfg items userCfg profile).2 =
        some (some s) → ChallengeShape s) ∧
    fetch_challenge_stats_enhanced false none true (some [some "Nellie has read 10 of 5 books"])
        true (some "You have read 12 of 30 books") =
      (some "12 of 30 books", some (some "12 of 30 books")) := by
  refine ⟨?_, ?_, rfl⟩ <;> cases valid with
  | true =>
    intro s hs
    have hfe : fetch_challenge_stats_enhanced true cached rssCfg items userCfg profile =
        (cached, none) := rfl
    rw [hfe] at hs
    first
    | exact hc s hs
    | exact absurd hs (by simp)
  | false =>
    intro s hs
    cases rssCfg with
    | false =>
      have hfe : fetch_challenge_stats_enhanced false cached false items userCfg profile =
          (none, none) := rfl
      rw [hfe] at hs
      exact absurd hs (by simp)
    | true =>
      cases hi : items.bind scanChallengeItems with
      | some q =>
        have hq : ChallengeShape q := by
          cases items with
          | none => exact absurd hi (by simp)
          | some l => exact scanChallengeItems_shape l q (by simpa using hi)
        have hfe : fetch_challenge_stats_enhanced false cached true items userCfg profile =
            (some q, some (some q)) := by
          unfold fetch_challenge_stats_enhanced
          simp [hi]
        rw [hfe] at hs
        simp only [Option.some.injEq] at hs
        exact hs ▸ hq
      | none =>
        cases userCfg with
        | false =>
          have hfe : fetch_challenge_stats_enhanced false cached true items false profile =
              (none, none) := by
            unfold fetch_challenge_stats_enhanced
            simp [hi]
          rw [hfe] at hs
          exact absurd hs (by simp)
        | true =>
          cases hp : profile.bind (fun html => scanChallengePats chProfilePats (getText html)) with
          | some q =>
            have hq : ChallengeShape q := by
              cases profile with
              | none => exact absurd hp (by simp)
              | some html => exact scanChallengePats_shape chProfilePats (getText html) q (by simpa using hp)
            have hfe : fetch_challenge_stats_enhanced false cached true items true profile =
                (some q, some (some q)) := by
              unfold fetch_challenge_stats_enhanced
              simp [hi, hp]
            rw [hfe] at hs
            simp only [Option.some.injEq] at hs
            exact hs ▸ hq
          | none =>
            have hfe : fetch_challenge_stats_enhanced false cached true items true profile =
                (none, some none) := by
              unfold fetch_challenge_stats_enhanced
              simp [hi, hp]
            rw [hfe] at hs
            exact absurd hs (by simp)

/-- Witness for C7 at the concrete cascade input: the returned
`"12 of 30 books"` is well-formed, with the implausible `10 of 5` match
discarded along the way. -/
theorem C7_challenge_plausible_witness :
    ChallengeShape "12 of 30 books" ∧
    fetch_challenge_stats_enhanced false none true (some [some "Nellie has read 10 of 5 books"])
        true (some "You have read 12 of 30 books") =
      (some "12 of 30 books", some (some "12 of 30 books")) := by
  have h := C7_challenge_plausible false none true (some [some "Nellie has read 10 of 5 books"])
    true (some "You have read 12 of 30 books") (fun s hs => absurd hs (by simp))
  exact ⟨h.1 "12 of 30 books" (by rw [h.2.2]), h.2.2⟩

/-! ## C3: fused fields -/

/-- The author and cover parts do not change the progress or metadata
components. -/
theorem fuseAuthorCover_preserves (st : FuseState) (ed : EntryData) :
    ((fuseCoverStep (fuseAuthorStep st ed) ed).best_progress = st.best_progress ∧
     (fuseCoverStep (fuseAuthorStep st ed) ed).best_progress_entry = st.best_progress_entry ∧
     (fuseCoverStep (fuseAuthorStep st ed) ed).best_metadata_entry = st.best_metadata_entry) := by
  have ha : (fuseAuthorStep st ed).best_progress = st.best_progress ∧
      (fuseAuthorStep st ed).best_progress_entry = st.best_progress_entry ∧
      (fuseAuthorStep st ed).best_metadata_entry = st.best_metadata_entry ∧
      (fuseAuthorStep st ed).best_cover_url = st.best_cover_url := by
    unfold fuseAuthorStep
    split
    · split <;> exact ⟨rfl, rfl, rfl, rfl⟩
    · exact ⟨rfl, rfl, rfl, rfl⟩
  set st2 := fuseAuthorStep st ed
  have hcov : (fuseCoverStep st2 ed).best_progress = st2.best_progress ∧
      (fuseCoverStep st2 ed).best_progress_entry = st2.best_progress_entry ∧
      (fuseCoverStep st2 ed).best_metadata_entry = st2.best_metadata_entry := by
    unfold fuseCoverStep
    split
    · split
      · split <;> exact ⟨rfl, rfl, rfl⟩
      · exact ⟨rfl, rfl, rfl⟩
    · exact ⟨rfl, rfl, rfl⟩
  exact ⟨hcov.1.trans ha.1, hcov.2.1.trans ha.2.1, hcov.2.2.trans ha.2.2.1⟩

/-- Progress after one loop iteration is the running maximum. -/
theorem fuseStep_best_progress (st : FuseState) (ed : EntryData) :
    (fuseStep st ed).best_progress = max st.best_progress ed.progress := by
  unfold fuseStep
  rw [(fuseAuthorCover_preserves _ ed).1]
  have hm : (fuseMetadataStep (fuseProgressStep st ed) ed).best_progress =
      (fuseProgressStep st ed).best_progress := by
    unfold fuseMetadataStep
    split <;> rfl
  rw [hm]
  unfold fuseProgressStep
  split
  · next h => show ed.progress = max st.best_progress ed.progress; omega
  · next h => show st.best_progress = max st.best_progress ed.progress; omega

/-- The replacement condition of line 428 is equivalent to a strict
progress improvement. -/
theorem fuseProgress_cond (st : FuseState) (ed : EntryData) :
    (ed.progress > st.best_progress ∨ (ed.progress > 0 ∧ st.best_progress = 0)) ↔
      st.best_progress < ed.progress := by
  omega

/-- Best-progress-entry after one iteration. -/
theorem fuseStep_best_progress_entry (st : FuseState) (ed : EntryData) :
    (fuseStep st ed).best_progress_entry =
      if st.best_progress < ed.progress then some ed else st.best_progress_entry := by
  unfold fuseStep
  rw [(fuseAuthorCover_preserves _ ed).2.1]
  have hm : (fuseMetadataStep (fuseProgressStep st ed) ed).best_progress_entry =
      (fuseProgressStep st ed).best_progress_entry := by
    unfold fuseMetadataStep
    split <;> rfl
  rw [hm]
  unfold fuseProgressStep
  by_cases h : ed.progress > st.best_progress ∨ (ed.progress > 0 ∧ st.best_progress = 0)
  · rw [if_pos h, if_pos ((fuseProgress_cond st ed).mp h)]
  · rw [if_neg h, if_neg (fun hc => h (Or.inl hc))]

/-- Best-metadata-entry after one iteration. -/
theorem fuseStep_best_metadata_entry (st : FuseState) (ed : EntryData) :
    (fuseStep st ed).best_metadata_entry =
      if ed.type = "started" ∧ st.best_metadata_entry = none then some ed
      else st.best_metadata_entry := by
  unfold fuseStep
  rw [(fuseAuthorCover_preserves _ ed).2.2]
  have hp : (fuseProgressStep st ed).best_metadata_entry = st.best_metadata_entry := by
    unfold fuseProgressStep
    split <;> rfl
  unfold fuseMetadataStep
  rw [hp]
  split <;> simp [hp]

/-- Progress of the whole fusion fold is the running maximum over the list. -/
theorem foldFuse_best_progress (l : List EntryData) (st : FuseState) :
    (l.foldl fuseStep st).best_progress = l.foldl (fun m e => max m e.progress) st.best_progress := by
  induction l generalizing st with
  | nil => rfl
  | cons e t ih =>
    rw [List.foldl_cons, List.foldl_cons, ih, fuseStep_best_progress]

/-- Every element is bounded by the running maximum. -/
theorem foldMax_ge (l : List EntryData) (init : Nat) :
    init ≤ l.foldl (fun m e => max m e.progress) init ∧
    ∀ e ∈ l, e.progress ≤ l.foldl (fun m e => max m e.progress) init := by
  induction l generalizing init with
  | nil => exact ⟨Nat.le_refl _, by simp⟩
  | cons x t ih =>
    rw [List.foldl_cons]
    have h := ih (max init x.progress)
    refine ⟨le_trans (Nat.le_max_left _ _) h.1, ?_⟩
    intro e he
    rcases List.mem_cons.mp he with rfl | hm
    · exact le_trans (Nat.le_max_right _ _) h.1
    · exact h.2 e hm

/-- The running maximum is the initial value or attained by some element. -/
theorem foldMax_attained (l : List EntryData) (init : Nat) :
    l.foldl (fun m e => max m e.progress) init = init ∨
    ∃ e ∈ l, e.progress = l.foldl (fun m e => max m e.progress) init := by
  induction l generalizing init with
  | nil => exact Or.inl rfl
  | cons x t ih =>
    rw [List.foldl_cons]
    rcases ih (max init x.progress) with h | ⟨e, he, hp⟩
    · rcases Nat.le_total x.progress init with hle | hge
      · rw [h, Nat.max_eq_left hle]
        exact Or.inl rfl
      · right
        refine ⟨x, List.mem_cons_self x t, ?_⟩
        rw [h, Nat.max_eq_right hge]
    · exact Or.inr ⟨e, List.mem_cons_of_mem x he, hp⟩

/-- Best-progress-entry invariant of the fusion fold: it stays `none`
exactly while the running maximum is 0, and otherwise is a record of the
list (or the initial entry) attaining the running maximum. -/
theorem foldFuse_bpe (l : List EntryData) (st : FuseState)
    (h : (st.best_progress_entry = none ∧ st.best_progress = 0) ∨
      (∃ ed, st.best_progress_entry = some ed ∧ ed.progress = st.best_progress ∧
        0 < st.best_progress)) :
    ((l.foldl fuseStep st).best_progress_entry = none ∧ (l.foldl fuseStep st).best_progress = 0) ∨
    (∃ ed, (ed ∈ l ∨ st.best_progress_entry = some ed) ∧
      (l.foldl fuseStep st).best_progress_entry = some ed ∧
      ed.progress = (l.foldl fuseStep st).best_progress ∧
      0 < (l.foldl fuseStep st).best_progress) := by
  induction l generalizing st with
  | nil =>
    rcases h with ⟨h1, h2⟩ | ⟨ed, h1, h2, h3⟩
    · exact Or.inl ⟨h1, h2⟩
    · exact Or.inr ⟨ed, Or.inr h1, h1, h2, h3⟩
  | cons x t ih =>
    rw [List.foldl_cons]
    have hstep : (fuseStep st x).best_progress_entry = none ∧ (fuseStep st x).best_progress = 0 ∨
        ∃ ed, (fuseStep st x).best_progress_entry = some ed ∧
          ed.progress = (fuseStep st x).best_progress ∧ 0 < (fuseStep st x).best_progress := by
      rw [fuseStep_best_progress, fuseStep_best_progress_entry]
      by_cases hlt : st.best_progress < x.progress
      · right
        refine ⟨x, by rw [if_pos hlt], ?_, ?_⟩ <;> omega
      · rw [if_neg hlt]
        rcases h with ⟨h1, h2⟩ | ⟨ed, h1, h2, h3⟩
        · left
          constructor
          · exact h1
          · omega
        · right
          exact ⟨ed, h1, by omega, by omega⟩
    rcases ih (fuseStep st x) hstep with hl | ⟨ed, hmem, h1, h2, h3⟩
    · exact Or.inl hl
    · right
      refine ⟨ed, ?_, h1, h2, h3⟩
      rcases hmem with hm | hm
      · exact Or.inl (List.mem_cons_of_mem x hm)
      · rw [fuseStep_best_progress_entry] at hm
        by_cases hlt : st.best_progress < x.progress
        · rw [if_pos hlt] at hm
          exact Or.inl (by rw [Option.some.injEq] at hm; rw [← hm]; exact List.mem_cons_self x t)
        · rw [if_neg hlt] at hm
          exact Or.inr hm

/-- Best-metadata-entry of the fusion fold is the first `started` record
when the initial entry is unset. -/
theorem foldFuse_bme (l : List EntryData) (st : FuseState) :
    (l.foldl fuseStep st).best_metadata_entry =
      match st.best_metadata_entry with
      | some m => some m
      | none => l.find? (fun e => e.type == "started") := by
  induction l generalizing st with
  | nil =>
    cases hm : st.best_metadata_entry <;> simp [hm]
  | cons x t ih =>
    rw [List.foldl_cons, ih, fuseStep_best_metadata_entry]
    cases hm : st.best_metadata_entry with
    | some m =>
      simp only [hm]
      have hng : ¬(x.type = "started" ∧ (some m : Option EntryData) = none) := by simp
      rw [if_neg hng]
    | none =>
      simp only [hm]
      by_cases hx : x.type = "started"
      · rw [if_pos ⟨hx, trivial⟩]
        simp [List.find?_cons, hx]
      · rw [if_neg (fun hc => hx hc.1)]
        simp [List.find?_cons, hx]

/-- The `started` record of the dune scenario (timestamp `T1`). -/
def duneStarted : EntryData :=
  mkEntryData
    { title := "started reading " ++ qs ++ "Dune" ++ qs,
      description := none, author := none, published := some "T1" }
    "Dune" 0 "started"

/-- The `progress_update` record of the dune scenario (progress 40,
timestamp `T2`, with `T2 > T1`). -/
def dunePU : EntryData :=
  mkEntryData
    { title := "Jane is on page 120 and 40% done with " ++ qs ++ "Dune" ++ qs,
      description := none, author := none, published := some "T2" }
    "Dune" 40 "progress_update"

/-- C3: within the selected group (the record list handed to the fusion
step), when fusion returns a record, its progress is the maximum
progress over all records — a nonzero progress value beats the zero of a
`started` record — `update_date` is the timestamp of a record attaining
that winning progress, and `start_date` is the timestamp of the first
record of kind `started`, or of the group's first record when none
exists.  In particular the two-record dune scenario fuses to progress
40, `start_date = T1`, `update_date = T2`. -/
theorem C3_fused_fields :
    (∀ (entries : List EntryData) (enum : List String → List String) (ch : Option String),
      entries ≠ [] → (∃ e ∈ entries, 0 < e.progress) →
      ∃ bd, fuseEntries entries enum ch = Except.ok bd ∧
        (∀ e ∈ entries, e.progress ≤ bd.progress) ∧
        (∃ e ∈ entries, e.progress = bd.progress ∧ bd.update_date = e.timestamp ∧
          0 < bd.progress) ∧
        (∀ m, entries.find? (fun e => e.type == "started") = some m →
          bd.start_date = m.timestamp) ∧
        (entries.find? (fun e => e.type == "started") = none →
          ∀ f, entries.head? = some f → bd.start_date = f.timestamp)) ∧
    (build_enhanced_book_data [("dune", [duneStarted, dunePU])] id none).map
        (Option.map (fun bd => (bd.progress, bd.start_date, bd.update_date))) =
      Except.ok (some (40, some "T1", some "T2")) := by
  constructor
  · intro entries enum ch hne hpos
    have hbp := foldFuse_best_progress entries initFuseState
    obtain ⟨e0, he0, hp0⟩ := hpos
    have hge := (foldMax_ge entries 0).2 e0 he0
    have hbppos : 0 < (entries.foldl fuseStep initFuseState).best_progress := by
      rw [hbp]
      exact lt_of_lt_of_le hp0 hge
    have hbpe := foldFuse_bpe entries initFuseState (Or.inl ⟨rfl, rfl⟩)
    rcases hbpe with ⟨_, hz⟩ | ⟨ed, hmem, hbe, hep, _⟩
    · omega
    · have hmem2 : ed ∈ entries := by
        rcases hmem with h | h
        · exact h
        · exact absurd h (by simp [initFuseState])
      have hbme : (entries.foldl fuseStep initFuseState).best_metadata_entry =
          entries.find? (fun e => e.type == "started") := foldFuse_bme entries initFuseState
      unfold fuseEntries
      cases hf : entries.find? (fun e => e.type == "started") with
      | some m =>
        rw [hf] at hbme
        simp only [hbme, hbe]
        refine ⟨_, rfl, ?_, ?_, ?_, ?_⟩
        · intro e he
          show e.progress ≤ (entries.foldl fuseStep initFuseState).best_progress
          rw [hbp]
          exact (foldMax_ge entries 0).2 e he
        · exact ⟨ed, hmem2, hep, rfl, hbppos⟩
        · intro m2 hm2
          cases hm2
          rfl
        · intro hnone
          exact absurd hnone (by simp)
      | none =>
        rw [hf] at hbme
        cases entries with
        | nil => exact absurd rfl hne
        | cons f t =>
          simp only [hbme, hbe, List.head?_cons]
          refine ⟨_, rfl, ?_, ?_, ?_, ?_⟩
          · intro e he
            show e.progress ≤ ((f :: t).foldl fuseStep initFuseState).best_progress
            rw [hbp]
            exact (foldMax_ge (f :: t) 0).2 e he
          · exact ⟨ed, hmem2, hep, rfl, hbppos⟩
          · intro m2 hm2
            exact absurd hm2 (by simp)
          · intro _ f2 hf2
            cases hf2
            rfl
  · rfl

/-- Witness for C3 at the dune scenario group in its selection order. -/
theorem C3_fused_fields_witness :
    ∃ bd, fuseEntries [dunePU, duneStarted] id none = Except.ok bd ∧
      (∀ e ∈ [dunePU, duneStarted], e.progress ≤ bd.progress) ∧
      (∃ e ∈ [dunePU, duneStarted], e.progress = bd.progress ∧ bd.update_date = e.timestamp ∧
        0 < bd.progress) ∧
      (∀ m, List.find? (fun e => e.type == "started") [dunePU, duneStarted] = some m →
        bd.start_date = m.timestamp) ∧
      (List.find? (fun e => e.type == "started") [dunePU, duneStarted] = none →
        ∀ f, ([dunePU, duneStarted] : List EntryData).head? = some f →
          bd.start_date = f.timestamp) :=
  C3_fused_fields.1 [dunePU, duneStarted] id none (by simp)
    ⟨dunePU, by simp, by decide⟩

/-! ## C5: author cascade -/

/-- A strategy-2 pattern acceptance implies the (1, 100) length bounds. -/
theorem tryAuthorPattern_shape (r : RE) (t a : String)
    (h : tryAuthorPattern r t = some a) : 1 < a.length ∧ a.length < 100 := by
  unfold tryAuthorPattern at h
  cases hr : reSearch true r t with
  | none => rw [hr] at h; exact absurd h (by simp)
  | some caps =>
    rw [hr] at h
    match caps with
    | [] => exact absurd h (by simp)
    | [g1] =>
      simp only at h
      split at h
      · next hcond =>
        simp only [Option.some.injEq] at h
        rw [← h]
        exact ⟨hcond.2.1, hcond.2.2⟩
      · exact absurd h (by simp)
    | _ :: _ :: _ => exact absurd h (by simp)

/-- Tier-1 acceptance: length above 1 and not the sentinel, with no upper
bound. -/
theorem strategy1_shape (d : Option String) (a : String)
    (h : strategy1 d = some a) : 1 < a.length ∧ a ≠ "Unknown Author" := by
  unfold strategy1 at h
  cases d with
  | none => exact absurd h (by simp)
  | some html =>
    have h1 : (match (findAnchors html).find? (fun hp => pyIn "/author/" hp.1) with
        | some hp =>
          let author_name := pyStrip hp.2
          if author_name ≠ "" ∧ author_name.length > 1 ∧ author_name ≠ "Unknown Author" then
            some author_name
          else none
        | none => none) = some a := h
    clear h
    cases hf : (findAnchors html).find? (fun hp => pyIn "/author/" hp.1) with
    | none => rw [hf] at h1; exact absurd h1 (by simp)
    | some hp =>
      rw [hf] at h1
      have h3 : (if pyStrip hp.2 ≠ "" ∧ (pyStrip hp.2).length > 1 ∧ pyStrip hp.2 ≠ "Unknown Author"
          then some (pyStrip hp.2) else none) = some a := h1
      split at h3
      · next hcond =>
        simp only [Option.some.injEq] at h3
        rw [← h3]
        exact ⟨hcond.2.1, hcond.2.2⟩
      · exact absurd h3 (by simp)

/-- Tier-2 acceptance: the (1, 100) bounds. -/
theorem strategy2_shape (t a : String) (h : strategy2 t = some a) :
    1 < a.length ∧ a.length < 100 := by
  have h0 : (match tryAuthorPattern authorPat1 (reSub true verbPhrasePat "" t) with
      | some a => some a
      | none =>
        match tryAuthorPattern authorPat2 (reSub true verbPhrasePat "" t) with
        | some a => some a
        | none => tryAuthorPattern authorPat3 (reSub true verbPhrasePat "" t)) = some a := h
  clear h
  rename' h0 => h
  cases h1 : tryAuthorPattern authorPat1 (reSub true verbPhrasePat "" t) with
  | some q =>
    rw [h1] at h
    simp only [Option.some.injEq] at h
    exact h ▸ tryAuthorPattern_shape _ _ q h1
  | none =>
    rw [h1] at h
    cases h2 : tryAuthorPattern authorPat2 (reSub true verbPhrasePat "" t) with
    | some q =>
      rw [h2] at h
      simp only [Option.some.injEq] at h
      exact h ▸ tryAuthorPattern_shape _ _ q h2
    | none =>
      rw [h2] at h
      exact tryAuthorPattern_shape _ _ a h

/-- Tier-3 acceptance: the (1, 100) bounds. -/
theorem strategy3_shape (au : Option String) (a : String)
    (h : strategy3 au = some a) : 1 < a.length ∧ a.length < 100 := by
  unfold strategy3 at h
  cases au with
  | none => exact absurd h (by simp)
  | some x =>
    simp only at h
    split at h
    · split at h
      · next hcond =>
        simp only [Option.some.injEq] at h
        rw [← h]
        exact ⟨hcond.2.1, hcond.2.2⟩
      · exact absurd h (by simp)
    · exact absurd h (by simp)

/-- C5 (amended): the cascade evaluates tier 1 (description link), tier 2
(title), tier 3 (author field) in order and short-circuits: a tier-1
success is returned whatever the other fields hold, a tier-2 success is
returned whatever the author field holds, and when tiers 1 and 2 fail
the result is exactly tier 3.  Tier 1 accepts names of length above 1
other than `"Unknown Author"` with no upper bound; tiers 2 and 3 accept
exactly lengths strictly between 1 and 100. -/
theorem C5_author_cascade :
    (∀ (d : Option String) (a : String), strategy1 d = some a →
      1 < a.length ∧ a ≠ "Unknown Author") ∧
    (∀ (t a : String), strategy2 t = some a → 1 < a.length ∧ a.length < 100) ∧
    (∀ (au : Option String) (a : String), strategy3 au = some a →
      1 < a.length ∧ a.length < 100) ∧
    (∀ (e : FeedEntry) (a : String), strategy1 e.description = some a →
      ∀ t2 au2 pub2, extract_author_robust
        { title := t2, description := e.description, author := au2, published := pub2 } = some a) ∧
    (∀ (e : FeedEntry) (a : String), strategy1 e.description = none →
      strategy2 e.title = some a →
      ∀ au2 pub2, extract_author_robust
        { title := e.title, description := e.description, author := au2, published := pub2 } =
          some a) ∧
    (∀ e : FeedEntry, strategy1 e.description = none → strategy2 e.title = none →
      extract_author_robust e = strategy3 e.author) := by
  refine ⟨strategy1_shape, strategy2_shape, strategy3_shape, ?_, ?_, ?_⟩
  · intro e a h1 t2 au2 pub2
    unfold extract_author_robust
    simp only [h1]
  · intro e a h1 h2 au2 pub2
    unfold extract_author_robust
    simp only [h1, h2]
  · intro e h1 h2
    unfold extract_author_robust
    simp only [h1, h2]

/-- Entry with an author-profile link (for the C5 witness). -/
def c5wEntry : FeedEntry :=
  { title := "ignored title",
    description := some "<a href=\"/author/show/1\">Andy Weir</a>",
    author := none, published := none }

/-- Witness for C5: a concrete tier-1 hit is returned unchanged whatever
the title and author field hold, and satisfies the tier-1 acceptance
conditions. -/
theorem C5_author_cascade_witness :
    (1 < ("Andy Weir" : String).length ∧ ("Andy Weir" : String) ≠ "Unknown Author") ∧
    extract_author_robust
      { title := "something else", description := c5wEntry.description,
        author := some "x", published := none } = some "Andy Weir" := by
  have h1 : strategy1 c5wEntry.description = some "Andy Weir" := rfl
  exact ⟨C5_author_cascade.1 c5wEntry.description "Andy Weir" h1,
    C5_author_cascade.2.2.2.1 c5wEntry "Andy Weir" h1 "something else" (some "x") none⟩

/-! ## C6: classifier patterns -/

/-- The progress-update trigger disjunction of line 225. -/
def progressTrigger (e : FeedEntry) : Bool :=
  pyIn "is on page" (pyLower e.title) || pyIn "is currently reading" (pyLower e.title) ||
    pyIn "updated her progress" (pyLower e.title) || pyIn "% done" (pyLower e.title)

/-- C6 (amended): the `started reading` branch classifies exactly the
entries with a quoted title (progress 0, kind `started`) and drops the
rest; the progress-update branch uses the quoted pattern first and falls
back to the verb-stripped suffix pattern, dropping the entry only when
both fail (or the stripped title is empty); the bare `currently reading`
branch again uses only the quoted pattern and drops the rest. -/
theorem C6_classifier_patterns :
    (∀ e : FeedEntry, pyIn "started reading" (pyLower e.title) = true →
      (∀ t, reSearch false quotedPat e.title = some [t] →
        classifyEntry e = Except.ok (some (t, 0, "started"))) ∧
      (reSearch false quotedPat e.title = none → classifyEntry e = Except.ok none)) ∧
    (∀ e : FeedEntry, pyIn "started reading" (pyLower e.title) = false →
      progressTrigger e = true →
      (∀ t, reSearch true quotedPat e.title = some [t] → pyStrip t ≠ "" →
        classifyEntry e = (extract_progress_from_entry e).map
          (fun p => some (pyStrip t, p, "progress_update"))) ∧
      (reSearch true quotedPat e.title = none →
        ∀ t, reSearch true progressFallbackPat e.title = some [t] → pyStrip t ≠ "" →
          classifyEntry e = (extract_progress_from_entry e).map
            (fun p => some (pyStrip t, p, "progress_update"))) ∧
      (reSearch true quotedPat e.title = none →
        reSearch true progressFallbackPat e.title = none →
        classifyEntry e = Except.ok none)) ∧
    (∀ e : FeedEntry, pyIn "started reading" (pyLower e.title) = false →
      progressTrigger e = false →
      pyIn "currently reading" (pyLower e.title) = true →
      (∀ t, reSearch false quotedPat e.title = some [t] →
        classifyEntry e = (extract_progress_from_entry e).map
          (fun p => some (t, p, "currently_reading"))) ∧
      (reSearch false quotedPat e.title = none → classifyEntry e = Except.ok none)) := by
  refine ⟨?_, ?_, ?_⟩
  · intro e h1
    constructor
    · intro t hs
      unfold classifyEntry
      simp only [h1, if_true, hs]
    · intro hs
      unfold classifyEntry
      simp only [h1, if_true, hs]
  · intro e h1 h2
    unfold progressTrigger at h2
    refine ⟨?_, ?_, ?_⟩
    · intro t hs hne
      unfold classifyEntry
      simp only [h1, h2, hs, if_false, if_true, Bool.false_eq_true, ite_false, ite_true]
      cases extract_progress_from_entry e <;> simp [Except.map, hne]
    · intro hq t hs hne
      unfold classifyEntry
      simp only [h1, h2, hq, hs, if_false, if_true, Bool.false_eq_true, ite_false, ite_true]
      cases extract_progress_from_entry e <;> simp [Except.map, hne]
    · intro hq hs
      unfold classifyEntry
      simp only [h1, h2, hq, hs, if_false, if_true, Bool.false_eq_true, ite_false, ite_true]
  · intro e h1 h2 h3
    unfold progressTrigger at h2
    constructor
    · intro t hs
      unfold classifyEntry
      simp only [h1, h2, h3, hs, if_false, if_true, Bool.false_eq_true, ite_false, ite_true]
      cases extract_progress_from_entry e <;> simp [Except.map]
    · intro hs
      unfold classifyEntry
      simp only [h1, h2, h3, hs, if_false, if_true, Bool.false_eq_true, ite_false, ite_true]

/-- A quoted `started reading` entry (for the C6 witness). -/
def c6wStarted : FeedEntry :=
  { title := "started reading " ++ qs ++ "Project Hail Mary" ++ qs,
    description := none, author := none, published := none }

/-- An unquoted progress-update entry hitting the fallback pattern (for
the C6 witness). -/
def c6wProgress : FeedEntry :=
  { title := "Carol updated her progress on War and Peace by Leo Tolstoy",
    description := none, author := none, published := none }

/-- Witness for C6: the quoted started entry is classified as `started`,
and an unquoted progress-update entry is kept through the fallback
pattern. -/
theorem C6_classifier_patterns_witness :
    classifyEntry c6wStarted = Except.ok (some ("Project Hail Mary", 0, "started")) ∧
    classifyEntry c6wProgress = Except.ok (some ("War and Peace", 0, "progress_update")) := by
  have h1 := (C6_classifier_patterns.1 c6wStarted (by decide)).1 "Project Hail Mary" (by decide)
  have h2 := (C6_classifier_patterns.2.1 c6wProgress (by decide) (by decide)).2.1 (by decide)
    "War and Peace" (by decide) (by decide)
  exact ⟨h1, h2.trans (by rfl)⟩

/-! ## Selection-step infrastructure (C2, C4) -/

/-- Strict list comparison is irreflexive. -/
theorem strLtb_irrefl (l : List Char) : strLtb l l = false := by
  induction l with
  | nil => rfl
  | cons c t ih => simp [strLtb, ih]

/-- Strict list comparison is transitive. -/
theorem strLtb_trans (a b c : List Char) (hab : strLtb a b = true) (hbc : strLtb b c = true) :
    strLtb a c = true := by
  induction a generalizing b c with
  | nil =>
    cases b with
    | nil => exact absurd hab (by simp [strLtb])
    | cons b1 bs =>
      cases c with
      | nil => exact absurd hbc (by simp [strLtb])
      | cons c1 cs => rfl
  | cons a1 asl ih =>
    cases b with
    | nil => exact absurd hab (by simp [strLtb])
    | cons b1 bs =>
      cases c with
      | nil => exact absurd hbc (by simp [strLtb])
      | cons c1 cs =>
        unfold strLtb at hab hbc ⊢
        by_cases hab1 : a1 = b1
        · by_cases hbc1 : b1 = c1
          · have hac : a1 = c1 := hab1.trans hbc1
            rw [if_pos hab1] at hab
            rw [if_pos hbc1] at hbc
            rw [if_pos hac]
            exact ih bs cs hab hbc
          · have hlt : b1.toNat < c1.toNat := by
              rw [if_neg hbc1] at hbc
              exact of_decide_eq_true hbc
            have hac : a1 ≠ c1 := by
              intro hc
              rw [hab1] at hc
              rw [hc] at hlt
              omega
            rw [if_neg hac]
            rw [hab1]
            exact decide_eq_true hlt
        · have hlt1 : a1.toNat < b1.toNat := by
            rw [if_neg hab1] at hab
            exact of_decide_eq_true hab
          by_cases hbc1 : b1 = c1
          · have hac : a1 ≠ c1 := by
              intro hc
              rw [← hbc1] at hc
              rw [hc] at hlt1
              omega
            rw [if_neg hac]
            rw [← hbc1]
            exact decide_eq_true hlt1
          · have hlt2 : b1.toNat < c1.toNat := by
              rw [if_neg hbc1] at hbc
              exact of_decide_eq_true hbc
            have hac : a1 ≠ c1 := by
              intro hc
              rw [hc] at hlt1
              omega
            rw [if_neg hac]
            exact decide_eq_true (by omega)

/-- Nothing is below the empty string. -/
theorem sLt_empty_right (a : String) : sLt a "" = false := by
  unfold sLt
  cases hd : a.data with
  | nil => rfl
  | cons c t => rfl

/-- The empty string is below every nonempty string. -/
theorem sLt_empty_left (a : String) (h : a ≠ "") : sLt "" a = true := by
  unfold sLt
  cases hd : a.data with
  | nil =>
    exact absurd (by cases a; simp_all) h
  | cons c t => rfl

/-- `maxS` with empty left argument. -/
theorem maxS_empty_left (a : String) : maxS "" a = a := by
  unfold maxS
  by_cases h : a = ""
  · rw [h]
    simp [sLt]
  · rw [sLt_empty_left a h]
    simp

/-- Timestamp key of the head of a record list (empty string for `[]`). -/
def headTsD : List EntryData → String
  | [] => ""
  | e :: _ => tsKey e

/-- The latest timestamp key of a group: running `maxS` over the keys. -/
def maxKeyGroup (es : List EntryData) : String :=
  es.foldl (fun m e => maxS m (tsKey e)) ""

/-- Head key after a descending insertion. -/
theorem headTsD_insertDesc (x : EntryData) (l : List EntryData) :
    headTsD (insertDesc x l) = maxS (headTsD l) (tsKey x) := by
  cases l with
  | nil =>
    show tsKey x = maxS "" (tsKey x)
    rw [maxS_empty_left]
  | cons y ys =>
    show headTsD (if sLt (tsKey y) (tsKey x) = true then x :: y :: ys else y :: insertDesc x ys) =
      maxS (tsKey y) (tsKey x)
    unfold maxS
    by_cases h : sLt (tsKey y) (tsKey x) = true
    · rw [if_pos h, if_pos h]
      rfl
    · rw [if_neg h, if_neg h]
      rfl

/-- Head key of the insertion-sort fold computes the running maximum. -/
theorem headTsD_foldl_insert (es : List EntryData) (acc : List EntryData) :
    headTsD (es.foldl (fun a x => insertDesc x a) acc) =
      es.foldl (fun m e => maxS m (tsKey e)) (headTsD acc) := by
  induction es generalizing acc with
  | nil => rfl
  | cons e t ih =>
    rw [List.foldl_cons, List.foldl_cons, ih, headTsD_insertDesc]

/-- The head key of the sorted group is the group's latest key. -/
theorem headTsD_sortEntriesDesc (es : List EntryData) :
    headTsD (sortEntriesDesc es) = maxKeyGroup es :=
  headTsD_foldl_insert es []

/-- Members of an insertion are the inserted element or previous members. -/
theorem mem_insertDesc (x y : EntryData) (l : List EntryData)
    (h : y ∈ insertDesc x l) : y = x ∨ y ∈ l := by
  induction l with
  | nil => simpa [insertDesc] using h
  | cons z zs ih =>
    unfold insertDesc at h
    split at h
    · rcases List.mem_cons.mp h with rfl | hm
      · exact Or.inl rfl
      · exact Or.inr hm
    · rcases List.mem_cons.mp h with rfl | hm
      · exact Or.inr (List.mem_cons_self _ _)
      · rcases ih hm with rfl | hm2
        · exact Or.inl rfl
        · exact Or.inr (List.mem_cons_of_mem _ hm2)

/-- Members of the sort come from the accumulator or the input. -/
theorem mem_foldl_insert (es acc : List EntryData) (y : EntryData)
    (h : y ∈ es.foldl (fun a x => insertDesc x a) acc) : y ∈ acc ∨ y ∈ es := by
  induction es generalizing acc with
  | nil => exact Or.inl h
  | cons e t ih =>
    rw [List.foldl_cons] at h
    rcases ih (insertDesc e acc) h with hm | hm
    · rcases mem_insertDesc e y acc hm with rfl | hm2
      · exact Or.inr (List.mem_cons_self _ _)
      · exact Or.inl hm2
    · exact Or.inr (List.mem_cons_of_mem _ hm)

/-- Sorted members are members of the input. -/
theorem mem_sortEntriesDesc (es : List EntryData) (y : EntryData)
    (h : y ∈ sortEntriesDesc es) : y ∈ es := by
  rcases mem_foldl_insert es [] y h with hm | hm
  · exact absurd hm (by simp)
  · exact hm

/-- An insertion result is never empty. -/
theorem insertDesc_ne_nil (x : EntryData) (l : List EntryData) : insertDesc x l ≠ [] := by
  cases l with
  | nil => simp [insertDesc]
  | cons y ys =>
    unfold insertDesc
    split <;> simp

/-- The insertion fold from a nonempty accumulator stays nonempty. -/
theorem foldl_insert_ne_nil (t : List EntryData) : ∀ acc : List EntryData, acc ≠ [] →
    t.foldl (fun a x => insertDesc x a) acc ≠ [] := by
  induction t with
  | nil => exact fun acc h => h
  | cons f fs ih =>
    intro acc _
    rw [List.foldl_cons]
    exact ih (insertDesc f acc) (insertDesc_ne_nil f acc)

/-- The sort of a nonempty list is nonempty. -/
theorem sortEntriesDesc_ne_nil (es : List EntryData) (h : es ≠ []) :
    sortEntriesDesc es ≠ [] := by
  cases es with
  | nil => exact absurd rfl h
  | cons e t =>
    show t.foldl (fun a x => insertDesc x a) (insertDesc e []) ≠ []
    exact foldl_insert_ne_nil t (insertDesc e []) (insertDesc_ne_nil e [])

/-- String strict comparison is irreflexive. -/
theorem sLt_irrefl (a : String) : sLt a a = false := strLtb_irrefl a.data

/-- String strict comparison is transitive. -/
theorem sLt_trans (a b c : String) (h1 : sLt a b = true) (h2 : sLt b c = true) :
    sLt a c = true := strLtb_trans a.data b.data c.data h1 h2

/-- A string not above the empty string is empty. -/
theorem eq_empty_of_not_lt (a : String) (h : sLt "" a = false) : a = "" := by
  by_contra hne
  rw [sLt_empty_left a hne] at h
  exact absurd h (by simp)

/-- Invariant of the selection loop accumulator after processing `P`:
either nothing was selected and every processed group was empty, or the
selected group is a processed group (sorted), `most_recent_time` keys its
latest timestamp, and no processed group has a later latest key. -/
def SelInv (P : List (String × List EntryData))
    (acc : Option (String × List EntryData) × Option String) : Prop :=
  (acc.1 = none ∧ acc.2 = none ∧ ∀ g ∈ P, g.2 = []) ∨
  (∃ k es, (k, es) ∈ P ∧ acc.1 = some (k, sortEntriesDesc es) ∧
    acc.2.getD "" = maxKeyGroup es ∧
    ∀ g ∈ P, sLt (acc.2.getD "") (maxKeyGroup g.2) = false)

/-- One selection step preserves the invariant. -/
theorem selStep_inv (P : List (String × List EntryData))
    (acc : Option (String × List EntryData) × Option String)
    (g : String × List EntryData) (h : SelInv P acc) : SelInv (P ++ [g]) (selStep acc g) := by
  cases hs : sortEntriesDesc g.2 with
  | nil =>
    have hg2 : g.2 = [] := by
      by_contra hne
      exact sortEntriesDesc_ne_nil g.2 hne hs
    have hstep : selStep acc g = acc := by
      unfold selStep
      rw [hs]
    rw [hstep]
    have hkey : maxKeyGroup g.2 = "" := by rw [hg2]; rfl
    rcases h with ⟨h1, h2, h3⟩ | ⟨k, es, hmem, h1, h2, h3⟩
    · left
      refine ⟨h1, h2, ?_⟩
      intro g2 hg
      rcases List.mem_append.mp hg with hm | hm
      · exact h3 g2 hm
      · rw [List.mem_singleton.mp hm]
        exact hg2
    · right
      refine ⟨k, es, List.mem_append_left _ hmem, h1, h2, ?_⟩
      intro g2 hg
      rcases List.mem_append.mp hg with hm | hm
      · exact h3 g2 hm
      · rw [List.mem_singleton.mp hm, hkey]
        exact sLt_empty_right _
  | cons latest rest =>
    have hmaxg : tsKey latest = maxKeyGroup g.2 := by
      have hh := headTsD_sortEntriesDesc g.2
      rw [hs] at hh
      exact hh
    have hstep : selStep acc g =
        (match acc.2 with
         | none => (some (g.1, latest :: rest), latest.timestamp)
         | some mrt =>
           match latest.timestamp with
           | none => acc
           | some s => if s ≠ "" ∧ sLt mrt s then (some (g.1, latest :: rest), some s) else acc) := by
      unfold selStep
      rw [hs]
    cases hacc2 : acc.2 with
    | none =>
      rw [hstep, hacc2]
      have hall : ∀ g2 ∈ P, maxKeyGroup g2.2 = "" := by
        intro g2 hg
        rcases h with ⟨_, _, h3⟩ | ⟨k, es, hmem, h1, h2, h3⟩
        · rw [h3 g2 hg]; rfl
        · rw [hacc2] at h3
          exact eq_empty_of_not_lt _ (h3 g2 hg)
      right
      refine ⟨g.1, g.2, List.mem_append_right _ (List.mem_singleton_self g), by rw [hs], ?_, ?_⟩
      · show latest.timestamp.getD "" = maxKeyGroup g.2
        exact hmaxg
      · intro g2 hg
        rcases List.mem_append.mp hg with hm | hm
        · rw [hall g2 hm]
          exact sLt_empty_right _
        · rw [List.mem_singleton.mp hm]
          show sLt (latest.timestamp.getD "") (maxKeyGroup g.2) = false
          rw [← hmaxg]
          exact sLt_irrefl _
    | some mrt =>
      have hsel : ∃ k es, (k, es) ∈ P ∧ acc.1 = some (k, sortEntriesDesc es) ∧
          mrt = maxKeyGroup es ∧ ∀ g2 ∈ P, sLt mrt (maxKeyGroup g2.2) = false := by
        rcases h with ⟨_, h2, _⟩ | ⟨k, es, hmem, h1, h2, h3⟩
        · rw [hacc2] at h2
          exact absurd h2 (by simp)
        · rw [hacc2] at h2 h3
          exact ⟨k, es, hmem, h1, h2, h3⟩
      obtain ⟨k, es, hmem, h1, h2, h3⟩ := hsel
      cases hts : latest.timestamp with
      | none =>
        rw [hstep, hacc2, hts]
        right
        refine ⟨k, es, List.mem_append_left _ hmem, h1, by rw [hacc2]; exact h2, ?_⟩
        intro g2 hg
        rw [hacc2]
        rcases List.mem_append.mp hg with hm | hm
        · exact h3 g2 hm
        · rw [List.mem_singleton.mp hm]
          show sLt mrt (maxKeyGroup g.2) = false
          rw [← hmaxg]
          show sLt mrt (tsKey latest) = false
          unfold tsKey
          rw [hts]
          exact sLt_empty_right _
      | some s =>
        have hkey : maxKeyGroup g.2 = s := by
          rw [← hmaxg]
          unfold tsKey
          rw [hts]
          rfl
        rw [hstep, hacc2, hts]
        show SelInv (P ++ [g])
          (if s ≠ "" ∧ sLt mrt s = true then (some (g.1, latest :: rest), some s) else acc)
        by_cases hcond : s ≠ "" ∧ sLt mrt s = true
        · rw [if_pos hcond]
          right
          refine ⟨g.1, g.2, List.mem_append_right _ (List.mem_singleton_self g), by rw [hs], ?_, ?_⟩
          · show s = maxKeyGroup g.2
            exact hkey.symm
          · intro g2 hg
            show sLt s (maxKeyGroup g2.2) = false
            rcases List.mem_append.mp hg with hm | hm
            · by_contra hlt
              rw [Bool.not_eq_false] at hlt
              have := sLt_trans mrt s (maxKeyGroup g2.2) hcond.2 hlt
              rw [h3 g2 hm] at this
              exact absurd this (by simp)
            · rw [List.mem_singleton.mp hm, hkey]
              exact sLt_irrefl s
        · rw [if_neg hcond]
          right
          refine ⟨k, es, List.mem_append_left _ hmem, h1, by rw [hacc2]; exact h2, ?_⟩
          intro g2 hg
          rw [hacc2]
          rcases List.mem_append.mp hg with hm | hm
          · exact h3 g2 hm
          · rw [List.mem_singleton.mp hm, hkey]
            show sLt mrt s = false
            by_cases hse : s = ""
            · rw [hse]
              exact sLt_empty_right _
            · by_contra hlt
              rw [Bool.not_eq_false] at hlt
              exact hcond ⟨hse, hlt⟩

/-- The invariant is preserved by folding the selection step over a list
of groups. -/
theorem selInv_foldl (gs : List (String × List EntryData)) :
    ∀ (P : List (String × List EntryData)) acc, SelInv P acc →
      SelInv (P ++ gs) (gs.foldl selStep acc) := by
  induction gs with
  | nil =>
    intro P acc h
    simpa using h
  | cons g t ih =>
    intro P acc h
    rw [List.foldl_cons]
    have h2 := ih (P ++ [g]) (selStep acc g) (selStep_inv P acc g h)
    rw [List.append_assoc] at h2
    simpa using h2

/-- Specification of the selection step: a selected group is one of the
input groups, sorted, and no group has a strictly later latest key. -/
theorem selectMostRecent_spec (gs : List (String × List EntryData)) (k : String)
    (sel : List EntryData) (h : selectMostRecent gs = some (k, sel)) :
    ∃ es, (k, es) ∈ gs ∧ sel = sortEntriesDesc es ∧ headTsD sel = maxKeyGroup es ∧
      ∀ g ∈ gs, sLt (maxKeyGroup es) (maxKeyGroup g.2) = false := by
  have hinv := selInv_foldl gs [] (none, none) (Or.inl ⟨rfl, rfl, by simp⟩)
  rw [List.nil_append] at hinv
  unfold selectMostRecent at h
  rcases hinv with ⟨h1, _, _⟩ | ⟨k2, es, hmem, h1, h2, h3⟩
  · rw [h1] at h
    exact absurd h (by simp)
  · rw [h1] at h
    simp only [Option.some.injEq, Prod.mk.injEq] at h
    obtain ⟨hk, hsel⟩ := h
    subst hk
    refine ⟨es, hmem, hsel.symm, ?_, ?_⟩
    · rw [← hsel]
      exact headTsD_sortEntriesDesc es
    · rw [← h2]
      exact h3

/-- With `most_recent_time` unset, a nonempty all-timestampless group
always replaces the accumulator and keeps `most_recent_time` unset. -/
theorem selStep_all_none (g : String × List EntryData)
    (acc1 : Option (String × List EntryData))
    (hg : g.2 ≠ []) (hts : ∀ e ∈ g.2, e.timestamp = none) :
    selStep (acc1, none) g = (some (g.1, sortEntriesDesc g.2), none) := by
  cases hs : sortEntriesDesc g.2 with
  | nil => exact absurd hs (sortEntriesDesc_ne_nil g.2 hg)
  | cons latest rest =>
    have hl : latest.timestamp = none :=
      hts latest (mem_sortEntriesDesc g.2 latest (hs ▸ List.mem_cons_self _ _))
    have hstep : selStep (acc1, none) g = (some (g.1, latest :: rest), latest.timestamp) := by
      unfold selStep
      rw [hs]
    rw [hstep, hl, ← hs]

/-- Folding all-timestampless nonempty groups from an unset
`most_recent_time` keeps the last group. -/
theorem foldl_selStep_all_none (gs : List (String × List EntryData)) :
    (∀ g ∈ gs, g.2 ≠ [] ∧ ∀ e ∈ g.2, e.timestamp = none) →
    ∀ (acc1 : Option (String × List EntryData)) g0, gs.getLast? = some g0 →
      gs.foldl selStep (acc1, none) = (some (g0.1, sortEntriesDesc g0.2), none) := by
  induction gs with
  | nil =>
    intro _ acc1 g0 hl
    exact absurd hl (by simp)
  | cons g t ih =>
    intro hts acc1 g0 hlast
    rw [List.foldl_cons,
      selStep_all_none g acc1 (hts g (List.mem_cons_self _ _)).1 (hts g (List.mem_cons_self _ _)).2]
    cases t with
    | nil =>
      simp only [List.getLast?_singleton, Option.some.injEq] at hlast
      rw [List.foldl_nil, hlast]
    | cons t1 ts =>
      have hlast2 : (t1 :: ts).getLast? = some g0 := by
        rwa [List.getLast?_cons_cons] at hlast
      exact ih (fun g2 hg2 => hts g2 (List.mem_cons_of_mem _ hg2))
        (some (g.1, sortEntriesDesc g.2)) g0 hlast2

/-- C2 (amended): the selection step picks a group whose latest timestamp
key (`timestamp or ""`) is maximal over all groups — part 1; records
without a timestamp are keyed `""`, strictly below every nonempty
timestamp string, hence compare as older — part 2; and when no record in
any group has a timestamp, the **last** group encountered (not the
first) is the stable choice — part 3. -/
theorem C2_selection_most_recent :
    (∀ (gs : List (String × List EntryData)) (k : String) (sel : List EntryData),
      selectMostRecent gs = some (k, sel) →
      ∃ es, (k, es) ∈ gs ∧ sel = sortEntriesDesc es ∧ headTsD sel = maxKeyGroup es ∧
        ∀ g ∈ gs, sLt (maxKeyGroup es) (maxKeyGroup g.2) = false) ∧
    (∀ (e f : EntryData) (s : String), e.timestamp = none → f.timestamp = some s → s ≠ "" →
      sLt (tsKey e) (tsKey f) = true) ∧
    (∀ gs : List (String × List EntryData), gs ≠ [] →
      (∀ g ∈ gs, g.2 ≠ [] ∧ ∀ e ∈ g.2, e.timestamp = none) →
      ∃ g0, gs.getLast? = some g0 ∧
        selectMostRecent gs = some (g0.1, sortEntriesDesc g0.2)) := by
  refine ⟨selectMostRecent_spec, ?_, ?_⟩
  · intro e f s he hf hs
    unfold tsKey
    rw [he, hf]
    exact sLt_empty_left s hs
  · intro gs hne hts
    cases hl : gs.getLast? with
    | none =>
      rw [List.getLast?_eq_none_iff] at hl
      exact absurd hl hne
    | some g0 =>
      refine ⟨g0, rfl, ?_⟩
      unfold selectMostRecent
      rw [foldl_selStep_all_none gs hts none g0 hl]

/-- A timestamped record in group `aaa` (for the C2 witness). -/
def c2wA : EntryData :=
  mkEntryData { title := "x", description := none, author := none, published := some "T1" }
    "Aaa" 5 "progress_update"

/-- A later-timestamped record in group `bbb` (for the C2 witness). -/
def c2wB : EntryData :=
  mkEntryData { title := "y", description := none, author := none, published := some "T2" }
    "Bbb" 7 "progress_update"

/-- The two-group collection with timestamps `T1 < T2` (for the C2 witness). -/
def c2wGroups : List (String × List EntryData) := [("aaa", [c2wA]), ("bbb", [c2wB])]

/-- Witness for C2: with timestamps `T1 < T2` the selection returns the
`T2` group and its key is maximal; a timestamp-less record keys strictly
below `T2`; and for the all-timestampless collection the last group is
kept. -/
theorem C2_selection_most_recent_witness :
    (∃ es, ("bbb", es) ∈ c2wGroups ∧ [c2wB] = sortEntriesDesc es ∧
      headTsD [c2wB] = maxKeyGroup es ∧
      ∀ g ∈ c2wGroups, sLt (maxKeyGroup es) (maxKeyGroup g.2) = false) ∧
    sLt (tsKey c2recA) (tsKey c2wB) = true ∧
    (∃ g0, ([("aaa", [c2recA]), ("bbb", [c2recB])] : List (String × List EntryData)).getLast? =
        some g0 ∧
      selectMostRecent [("aaa", [c2recA]), ("bbb", [c2recB])] =
        some (g0.1, sortEntriesDesc g0.2)) := by
  refine ⟨?_, ?_, ?_⟩
  · exact C2_selection_most_recent.1 c2wGroups "bbb" [c2wB] (by decide)
  · exact C2_selection_most_recent.2.1 c2recA c2wB "T2" rfl rfl (by decide)
  · exact C2_selection_most_recent.2.2 [("aaa", [c2recA]), ("bbb", [c2recB])] (by simp) (by decide)

/-! ## C4: fusion determinism -/

/-- The max-by-length fold returns one of its candidates. -/
theorem foldMaxStr_mem (xs : List String) : ∀ x : String,
    xs.foldl (fun b a => if a.length > b.length then a else b) x ∈ x :: xs := by
  induction xs with
  | nil => intro x; simp
  | cons a t ih =>
    intro x
    rw [List.foldl_cons]
    rcases List.mem_cons.mp (ih (if a.length > x.length then a else x)) with hm | hm
    · rw [hm]
      split
      · exact List.mem_cons_of_mem _ (List.mem_cons_self _ _)
      · exact List.mem_cons_self _ _
    · exact List.mem_cons_of_mem _ (List.mem_cons_of_mem _ hm)

/-- The max-by-length fold dominates its seed and all candidates. -/
theorem foldMaxStr_ge (xs : List String) : ∀ x : String,
    x.length ≤ (xs.foldl (fun b a => if a.length > b.length then a else b) x).length ∧
    ∀ b ∈ xs, b.length ≤ (xs.foldl (fun b a => if a.length > b.length then a else b) x).length := by
  induction xs with
  | nil => intro x; exact ⟨Nat.le_refl _, by simp⟩
  | cons a t ih =>
    intro x
    rw [List.foldl_cons]
    have h := ih (if a.length > x.length then a else x)
    have hseed : x.length ≤ (if a.length > x.length then a else x).length := by
      split <;> omega
    have hfirst : a.length ≤ (if a.length > x.length then a else x).length := by
      split <;> omega
    refine ⟨le_trans hseed h.1, ?_⟩
    intro b hb
    rcases List.mem_cons.mp hb with rfl | hm
    · exact le_trans hfirst h.1
    · exact h.2 b hm

/-- Under a unique longest candidate, `max(..., key=len)` is independent
of the iteration order: any enumeration of the same candidates yields
that candidate. -/
theorem pyMaxByLen_unique (A l : List String) (m : String)
    (hperm : l.Perm A) (hm : m ∈ A)
    (hmax : ∀ b ∈ A, b.length ≤ m.length)
    (huniq : ∀ b ∈ A, b.length = m.length → b = m) :
    pyMaxByLen l = some m := by
  cases l with
  | nil =>
    have : A = [] := hperm.symm.eq_nil
    rw [this] at hm
    exact absurd hm (by simp)
  | cons x xs =>
    unfold pyMaxByLen
    have hresmem := foldMaxStr_mem xs x
    have hresge := foldMaxStr_ge xs x
    set r := xs.foldl (fun b a => if a.length > b.length then a else b) x with hr
    have hrA : r ∈ A := hperm.mem_iff.mp hresmem
    have hmL : m ∈ x :: xs := hperm.mem_iff.mpr hm
    have hmler : m.length ≤ r.length := by
      rcases List.mem_cons.mp hmL with rfl | hm2
      · exact hresge.1
      · exact hresge.2 m hm2
    have hrlem : r.length ≤ m.length := hmax r hrA
    have : r = m := huniq r hrA (by omega)
    show some r = some m
    rw [this]

/-- With equal author picks, fusion does not depend on the enumeration at
all: the rest of the fused record never consults it. -/
theorem fuseEntries_enum_eq (entries : List EntryData) (ch : Option String)
    (e1 e2 : List String → List String)
    (hauth : pyMaxByLen (e1 (entries.foldl fuseStep initFuseState).all_authors) =
      pyMaxByLen (e2 (entries.foldl fuseStep initFuseState).all_authors)) :
    fuseEntries entries e1 ch = fuseEntries entries e2 ch := by
  unfold fuseEntries
  cases hbm : (match (entries.foldl fuseStep initFuseState).best_metadata_entry with
      | some m => some m
      | none => entries.head?) with
  | none => simp only [hbm]
  | some bme =>
    simp only [hbm]
    cases hbe : (entries.foldl fuseStep initFuseState).best_progress_entry with
    | none => simp only [hbe]
    | some bpe =>
      simp only [hbe, hauth]

/-- C4 (amended): the selection step never consults the author-set
enumeration, and fusion is deterministic in the grouped records for every
fused field except the author tie-break: for any two enumerations of the
Python author set (modelled as arbitrary permutations), the built record
is identical provided the selected group's candidate set is empty or has
a unique longest name.  (The counterexample shows the author does depend
on the enumeration when two candidates share the maximal length.) -/
theorem C4_fusion_determinism (gs : List (String × List EntryData)) (ch : Option String)
    (e1 e2 : List String → List String)
    (hp1 : ∀ l : List String, (e1 l).Perm l) (hp2 : ∀ l : List String, (e2 l).Perm l)
    (hu : ∀ k es, (k, es) ∈ gs →
      ((sortEntriesDesc es).foldl fuseStep initFuseState).all_authors = [] ∨
      ∃ m ∈ ((sortEntriesDesc es).foldl fuseStep initFuseState).all_authors,
        (∀ b ∈ ((sortEntriesDesc es).foldl fuseStep initFuseState).all_authors,
          b.length ≤ m.length) ∧
        ∀ b ∈ ((sortEntriesDesc es).foldl fuseStep initFuseState).all_authors,
          b.length = m.length → b = m) :
    build_enhanced_book_data gs e1 ch = build_enhanced_book_data gs e2 ch := by
  unfold build_enhanced_book_data
  by_cases hgs : gs.isEmpty = true
  · rw [if_pos hgs, if_pos hgs]
  · rw [if_neg hgs, if_neg hgs]
    cases hsel : selectMostRecent gs with
    | none => rfl
    | some ksel =>
      obtain ⟨k, sel⟩ := ksel
      obtain ⟨es, hmem, hselEq, _, _⟩ := selectMostRecent_spec gs k sel hsel
      have hA := hu k es hmem
      rw [← hselEq] at hA
      have hauth : pyMaxByLen (e1 (sel.foldl fuseStep initFuseState).all_authors) =
          pyMaxByLen (e2 (sel.foldl fuseStep initFuseState).all_authors) := by
        rcases hA with hA | ⟨m, hm, hmax, huniq⟩
        · have h1 : e1 (sel.foldl fuseStep initFuseState).all_authors = [] :=
            List.length_eq_zero.mp (by rw [(hp1 _).length_eq, hA]; rfl)
          have h2 : e2 (sel.foldl fuseStep initFuseState).all_authors = [] :=
            List.length_eq_zero.mp (by rw [(hp2 _).length_eq, hA]; rfl)
          rw [h1, h2]
        · rw [pyMaxByLen_unique _ _ m (hp1 _) hm hmax huniq,
            pyMaxByLen_unique _ _ m (hp2 _) hm hmax huniq]
      exact congrArg (Except.map some) (fuseEntries_enum_eq sel ch e1 e2 hauth)

/-- Feed entry with candidate `"Ann Lee"` (for the C4 witness). -/
def c4w1 : FeedEntry :=
  { title := "started reading " ++ qs ++ "Some Book" ++ qs,
    description := none, author := some "x by Ann Lee", published := some "T1" }

/-- Feed entry with the shorter candidate `"Bo"` (for the C4 witness). -/
def c4w2 : FeedEntry :=
  { title := "Jane is on page 40 of 100 of " ++ qs ++ "Some Book" ++ qs,
    description := none, author := some "x by Bo", published := some "T2" }

/-- The records collected for the C4 witness group. -/
def c4wEntries : List EntryData :=
  [mkEntryData c4w1 "Some Book" 0 "started", mkEntryData c4w2 "Some Book" 40 "progress_update"]

/-- The witness collection: one group, two candidates of different lengths. -/
def c4wGroups : List (String × List EntryData) := [("some book", c4wEntries)]

/-- Witness for C4: with a unique longest candidate the build is identical
under two different set enumerations, and the author is the longest
candidate. -/
theorem C4_fusion_determinism_witness :
    build_enhanced_book_data c4wGroups id none =
      build_enhanced_book_data c4wGroups List.reverse none ∧
    (build_enhanced_book_data c4wGroups List.reverse none).map (Option.map BookData.author) =
      Except.ok (some "Ann Lee") := by
  refine ⟨C4_fusion_determinism c4wGroups none id List.reverse
    (fun l => List.Perm.refl l) (fun l => List.reverse_perm l) ?_, rfl⟩
  intro k es hmem
  simp only [c4wGroups, List.mem_singleton] at hmem
  have hes : es = c4wEntries := congrArg Prod.snd hmem
  rw [hes]
  decide

/-! ## C10: idempotence of title normalization -/

/-- Literal consumption yields a suffix of the input. -/
theorem dropLit_suffix (ci : Bool) (l : List Char) : ∀ s s2 : List Char,
    dropLit ci l s = some s2 → s2 <:+ s := by
  induction l with
  | nil =>
    intro s s2 h
    simp only [dropLit, Option.some.injEq] at h
    rw [← h]
  | cons c cs ih =>
    intro s s2 h
    cases s with
    | nil => exact absurd h (by simp [dropLit])
    | cons d ds =>
      unfold dropLit at h
      split at h
      all_goals split at h
      all_goals first
      | exact (ih ds s2 h).trans (List.suffix_cons d ds)
      | exact absurd h (by simp)

/-- The matcher only calls its continuation on suffixes of the input:
whenever the continuation's results satisfy a property `G` (holding also
at `none`) on all suffixes, the match result satisfies `G`. -/
theorem reMatch_cont (ci : Bool) (r : RE) :
    ∀ (s : List Char) (caps : Caps) (k : MCont) (G : MRes → Prop),
      G none → (∀ s2 caps2, s2 <:+ s → G (k s2 caps2)) → G (reMatch ci r s caps k) := by
  induction r with
  | eps =>
    intro s caps k G hn hk
    exact hk s caps (List.suffix_refl s)
  | lit t =>
    intro s caps k G hn hk
    show G (match dropLit ci t.data s with
      | some s2 => k s2 caps
      | none => none)
    cases hd : dropLit ci t.data s with
    | none => exact hn
    | some s2 => exact hk s2 caps (dropLit_suffix ci t.data s s2 hd)
  | cls p =>
    intro s caps k G hn hk
    cases s with
    | nil => exact hn
    | cons c s2 =>
      show G (if p c then k s2 caps else none)
      split
      · exact hk s2 caps (List.suffix_cons c s2)
      · exact hn
  | star p lzy =>
    intro s caps k G hn hk
    show G (if lzy then starLazy p s caps k else starGreedy p s caps k)
    have hgreedy : ∀ (s : List Char) caps,
        (∀ s2 caps2, s2 <:+ s → G (k s2 caps2)) → G (starGreedy p s caps k) := by
      intro s
      induction s with
      | nil =>
        intro caps hk2
        exact hk2 [] caps (List.suffix_refl [])
      | cons c s2 ih =>
        intro caps hk2
        show G (if p c then
            match starGreedy p s2 caps k with
            | some res => some res
            | none => k (c :: s2) caps
          else k (c :: s2) caps)
        split
        · cases hg : starGreedy p s2 caps k with
          | some res =>
            have := ih caps (fun s3 caps3 hs3 => hk2 s3 caps3 (hs3.trans (List.suffix_cons c s2)))
            rw [hg] at this
            exact this
          | none => exact hk2 (c :: s2) caps (List.suffix_refl _)
        · exact hk2 (c :: s2) caps (List.suffix_refl _)
    have hlazy : ∀ (s : List Char) caps,
        (∀ s2 caps2, s2 <:+ s → G (k s2 caps2)) → G (starLazy p s caps k) := by
      intro s
      induction s with
      | nil =>
        intro caps hk2
        exact hk2 [] caps (List.suffix_refl [])
      | cons c s2 ih =>
        intro caps hk2
        show G (match k (c :: s2) caps with
          | some res => some res
          | none => if p c then starLazy p s2 caps k else none)
        cases hkk : k (c :: s2) caps with
        | some res =>
          have := hk2 (c :: s2) caps (List.suffix_refl _)
          rw [hkk] at this
          exact this
        | none =>
          show G (if p c = true then starLazy p s2 caps k else none)
          split
          · exact ih caps (fun s3 caps3 hs3 => hk2 s3 caps3 (hs3.trans (List.suffix_cons c s2)))
          · exact hn
    split
    · exact hlazy s caps hk
    · exact hgreedy s caps hk
  | seq a b iha ihb =>
    intro s caps k G hn hk
    exact iha s caps _ G hn (fun s2 caps2 hs2 =>
      ihb s2 caps2 k G hn (fun s3 caps3 hs3 => hk s3 caps3 (hs3.trans hs2)))
  | alt a b iha ihb =>
    intro s caps k G hn hk
    show G (match reMatch ci a s caps k with
      | some res => some res
      | none => reMatch ci b s caps k)
    cases ha : reMatch ci a s caps k with
    | some res =>
      have := iha s caps k G hn hk
      rw [ha] at this
      exact this
    | none => exact ihb s caps k G hn hk
  | opt a iha =>
    intro s caps k G hn hk
    show G (match reMatch ci a s caps k with
      | some res => some res
      | none => k s caps)
    cases ha : reMatch ci a s caps k with
    | some res =>
      have := iha s caps k G hn hk
      rw [ha] at this
      exact this
    | none => exact hk s caps (List.suffix_refl s)
  | grp a iha =>
    intro s caps k G hn hk
    exact iha s caps _ G hn (fun s2 caps2 hs2 => hk s2 _ hs2)
  | eos =>
    intro s caps k G hn hk
    match s with
    | [] => exact hk [] caps (List.suffix_refl _)
    | [c] =>
      show G (if c = '\n' then k [c] caps else none)
      split
      · exact hk [c] caps (List.suffix_refl _)
      · exact hn
    | c :: d :: t => exact hn

/-- A successful anchored match leaves a suffix of the input. -/
theorem reMatchHere_suffix (ci : Bool) (r : RE) (s rest : List Char) (caps : Caps)
    (h : reMatchHere ci r s = some (rest, caps)) : rest <:+ s := by
  have := reMatch_cont ci r s [] (fun rest caps => some (rest, caps))
    (fun o => ∀ rest2 caps2, o = some (rest2, caps2) → rest2 <:+ s)
    (by intro _ _ hx; exact absurd hx (by simp))
    (by
      intro s2 caps2 hs2 rest2 caps3 hx
      simp only [Option.some.injEq, Prod.mk.injEq] at hx
      rw [← hx.1]
      exact hs2)
  exact this rest caps h

/-- Characters of a substitution output come from the replacement or the
input. -/
theorem reSubAux_subset (ci : Bool) (r : RE) (repl : List Char) :
    ∀ (fuel : Nat) (l : List Char) (c : Char), c ∈ reSubAux ci r repl fuel l →
      c ∈ repl ∨ c ∈ l := by
  intro fuel
  induction fuel with
  | zero =>
    intro l c h
    cases l with
    | nil =>
      show c ∈ repl ∨ c ∈ ([] : List Char)
      revert h
      show c ∈ (match reMatchHere ci r [] with
        | some _ => repl
        | none => []) → _
      cases reMatchHere ci r [] with
      | some x => exact fun h => Or.inl h
      | none => exact fun h => absurd h (by simp)
    | cons d ds => exact Or.inr h
  | succ fuel ih =>
    intro l c h
    cases l with
    | nil =>
      revert h
      show c ∈ (match reMatchHere ci r [] with
        | some _ => repl
        | none => []) → _
      cases reMatchHere ci r [] with
      | some x => exact fun h => Or.inl h
      | none => exact fun h => absurd h (by simp)
    | cons d ds =>
      revert h
      show c ∈ (match reMatchHere ci r (d :: ds) with
        | some (rest, _) =>
          if rest.length < (d :: ds).length then repl ++ reSubAux ci r repl fuel rest
          else d :: reSubAux ci r repl fuel ds
        | none => d :: reSubAux ci r repl fuel ds) → _
      rcases hm : reMatchHere ci r (d :: ds) with _ | ⟨rest, caps⟩
      · intro h
        have h2 : c ∈ d :: reSubAux ci r repl fuel ds := h
        rcases List.mem_cons.mp h2 with rfl | hr
        · exact Or.inr (List.mem_cons_self _ _)
        · rcases ih ds c hr with hr2 | hr2
          · exact Or.inl hr2
          · exact Or.inr (List.mem_cons_of_mem _ hr2)
      · intro h
        have h2 : c ∈ (if rest.length < (d :: ds).length then
            repl ++ reSubAux ci r repl fuel rest
          else d :: reSubAux ci r repl fuel ds) := h
        by_cases hlen : rest.length < (d :: ds).length
        · rw [if_pos hlen] at h2
          rcases List.mem_append.mp h2 with hr | hr
          · exact Or.inl hr
          · rcases ih rest c hr with hr2 | hr2
            · exact Or.inl hr2
            · exact Or.inr ((reMatchHere_suffix ci r (d :: ds) rest caps hm).subset hr2)
        · rw [if_neg hlen] at h2
          rcases List.mem_cons.mp h2 with rfl | hr
          · exact Or.inr (List.mem_cons_self _ _)
          · rcases ih ds c hr with hr2 | hr2
            · exact Or.inl hr2
            · exact Or.inr (List.mem_cons_of_mem _ hr2)

/-- Characters of `reSub` come from the replacement or the input string. -/
theorem reSub_subset (ci : Bool) (r : RE) (repl s : String) (c : Char)
    (h : c ∈ (reSub ci r repl s).data) : c ∈ repl.data ∨ c ∈ s.data :=
  reSubAux_subset ci r repl.data s.data.length s.data c h

/-- `dropWhile` never lengthens a list. -/
theorem dropWhile_length_le (p : Char → Bool) (l : List Char) :
    (l.dropWhile p).length ≤ l.length := by
  induction l with
  | nil => simp
  | cons c t ih =>
    rw [List.dropWhile_cons]
    split
    · exact Nat.le_succ_of_le ih
    · simp

/-- The single-character-class pattern consumes exactly one class
character. -/
theorem reMatchHere_cls (ci : Bool) (p : Char → Bool) (c : Char) (s : List Char) :
    reMatchHere ci (RE.cls p) (c :: s) = if p c then some (s, ([] : Caps)) else none := rfl

/-- Substituting a one-character class is filtering that class out. -/
theorem reSubAux_cls_filter (ci : Bool) (p : Char → Bool) :
    ∀ (fuel : Nat) (l : List Char), l.length ≤ fuel →
      reSubAux ci (RE.cls p) [] fuel l = l.filter (fun c => !p c) := by
  intro fuel
  induction fuel with
  | zero =>
    intro l hl
    have h0 : l = [] := List.length_eq_zero.mp (Nat.le_zero.mp hl)
    rw [h0]
    rfl
  | succ fuel ih =>
    intro l hl
    cases l with
    | nil => rfl
    | cons c s =>
      by_cases hp : p c = true
      · have hm : reMatchHere ci (RE.cls p) (c :: s) = some (s, []) := by
          rw [reMatchHere_cls, if_pos hp]
        calc reSubAux ci (RE.cls p) [] (fuel + 1) (c :: s)
            = (match reMatchHere ci (RE.cls p) (c :: s) with
               | some (rest, _) =>
                 if rest.length < (c :: s).length then
                   [] ++ reSubAux ci (RE.cls p) [] fuel rest
                 else c :: reSubAux ci (RE.cls p) [] fuel s
               | none => c :: reSubAux ci (RE.cls p) [] fuel s) := rfl
          _ = if s.length < (c :: s).length then [] ++ reSubAux ci (RE.cls p) [] fuel s
              else c :: reSubAux ci (RE.cls p) [] fuel s := by rw [hm]
          _ = reSubAux ci (RE.cls p) [] fuel s := by
              rw [if_pos (by simp)]
              rfl
          _ = s.filter (fun c => !p c) := ih s (Nat.le_of_succ_le_succ hl)
          _ = (c :: s).filter (fun c => !p c) := by simp [List.filter_cons, hp]
      · have hm : reMatchHere ci (RE.cls p) (c :: s) = none := by
          rw [reMatchHere_cls, if_neg (by simp [hp])]
        calc reSubAux ci (RE.cls p) [] (fuel + 1) (c :: s)
            = (match reMatchHere ci (RE.cls p) (c :: s) with
               | some (rest, _) =>
                 if rest.length < (c :: s).length then
                   [] ++ reSubAux ci (RE.cls p) [] fuel rest
                 else c :: reSubAux ci (RE.cls p) [] fuel s
               | none => c :: reSubAux ci (RE.cls p) [] fuel s) := rfl
          _ = c :: reSubAux ci (RE.cls p) [] fuel s := by rw [hm]
          _ = c :: s.filter (fun c => !p c) := by rw [ih s (Nat.le_of_succ_le_succ hl)]
          _ = (c :: s).filter (fun c => !p c) := by simp [List.filter_cons, hp]

/-- A pattern starting with a character class fails where no character of
the class appears. -/
theorem reMatchHere_seq_cls_none (ci : Bool) (p : Char → Bool) (X : RE) (c : Char)
    (s : List Char) (hp : p c = false) :
    reMatchHere ci (RE.seq (RE.cls p) X) (c :: s) = none := by
  show (if p c then _ else none) = none
  rw [if_neg (by simp [hp])]

/-- Substitution with a class-headed pattern is the identity on strings
with no character of the class. -/
theorem reSubAux_seq_cls_id (ci : Bool) (p : Char → Bool) (X : RE) (repl : List Char) :
    ∀ (fuel : Nat) (l : List Char), (∀ c ∈ l, p c = false) →
      reSubAux ci (RE.seq (RE.cls p) X) repl fuel l = l := by
  intro fuel
  induction fuel with
  | zero =>
    intro l _
    cases l with
    | nil => rfl
    | cons c s => rfl
  | succ fuel ih =>
    intro l h
    cases l with
    | nil => rfl
    | cons c s =>
      have hm := reMatchHere_seq_cls_none ci p X c s (h c (List.mem_cons_self _ _))
      calc reSubAux ci (RE.seq (RE.cls p) X) repl (fuel + 1) (c :: s)
          = (match reMatchHere ci (RE.seq (RE.cls p) X) (c :: s) with
             | some (rest, _) =>
               if rest.length < (c :: s).length then
                 repl ++ reSubAux ci (RE.seq (RE.cls p) X) repl fuel rest
               else c :: reSubAux ci (RE.seq (RE.cls p) X) repl fuel s
             | none => c :: reSubAux ci (RE.seq (RE.cls p) X) repl fuel s) := rfl
        _ = c :: reSubAux ci (RE.seq (RE.cls p) X) repl fuel s := by rw [hm]
        _ = c :: s := by rw [ih s (fun d hd => h d (List.mem_cons_of_mem _ hd))]

/-- `Char.ofNat` at a valid code point has that code point. -/
theorem charOfNatToNat (n : Nat) (h : n.isValidChar) : (Char.ofNat n).toNat = n := by
  simp [Char.ofNat, h]
  rfl

/-- Characters outside the uppercase ASCII range are fixed by `toLower`. -/
theorem toLower_fix (d : Char) (h : ¬(d.toNat ≥ 65 ∧ d.toNat ≤ 90)) : Char.toLower d = d := by
  simp only [Char.toLower]
  split
  · next hc => exact absurd hc h
  · rfl

/-- `Char.toLower` is idempotent. -/
theorem toLower_idem (c : Char) : Char.toLower (Char.toLower c) = Char.toLower c := by
  by_cases h : c.toNat ≥ 65 ∧ c.toNat ≤ 90
  · have h1 : Char.toLower c = Char.ofNat (c.toNat + 32) := by
      simp only [Char.toLower]
      split
      · rfl
      · next hc => exact absurd h hc
    have hv : (c.toNat + 32).isValidChar := by
      left
      omega
    have h2 : (Char.toLower c).toNat = c.toNat + 32 := by
      rw [h1, charOfNatToNat _ hv]
    have h3 : ¬((Char.toLower c).toNat ≥ 65 ∧ (Char.toLower c).toNat ≤ 90) := by
      rw [h2]
      omega
    exact toLower_fix _ h3
  · rw [toLower_fix c h, toLower_fix c h]

/-- A map whose function fixes every element of a list is the identity there. -/
theorem mapEqSelf (f : Char → Char) (l : List Char) (h : ∀ c ∈ l, f c = c) : l.map f = l := by
  induction l with
  | nil => rfl
  | cons c t ih =>
    simp only [List.map_cons, h c (List.mem_cons_self _ _),
      ih (fun d hd => h d (List.mem_cons_of_mem _ hd))]

/-- The head of `dropWhile p` does not satisfy `p`. -/
theorem headDropWhile (p : Char → Bool) (l : List Char) :
    ∀ c, (l.dropWhile p).head? = some c → p c = false := by
  induction l with
  | nil => intro c h; exact absurd h (by simp)
  | cons d t ih =>
    intro c h
    rw [List.dropWhile_cons] at h
    by_cases hp : p d = true
    · rw [if_pos hp] at h
      exact ih c h
    · rw [if_neg hp] at h
      simp only [List.head?_cons, Option.some.injEq] at h
      rw [← h]
      exact Bool.eq_false_iff.mpr hp

/-- `dropWhile p` is the identity when the head already fails `p`. -/
theorem dropWhileOfHead (p : Char → Bool) (l : List Char)
    (h : ∀ c, l.head? = some c → p c = false) : l.dropWhile p = l := by
  cases l with
  | nil => rfl
  | cons c t =>
    rw [List.dropWhile_cons, if_neg (by rw [h c rfl]; simp)]

/-- A nonempty suffix has the same last element as the full list. -/
theorem getLastSuffix (l m : List Char) (h : m <:+ l) (hm : m ≠ []) :
    m.getLast? = l.getLast? := by
  rcases h with ⟨t, rfl⟩
  rw [List.getLast?_append_of_ne_nil]
  exact hm

/-- Every whitespace character of the list is a plain space. -/
def wsNorm (l : List Char) : Prop := ∀ c ∈ l, isPySpace c = true → c = ' '

/-- No two adjacent characters of the list are both whitespace. -/
def noAdjWs (l : List Char) : Prop :=
  List.Chain' (fun a b => ¬(isPySpace a = true ∧ isPySpace b = true)) l

/-- A greedy star whose continuation always succeeds consumes the longest
class run: it is `dropWhile`. -/
theorem starGreedy_total (p : Char → Bool) (k : MCont)
    (hk : ∀ s caps, (k s caps).isSome = true) :
    ∀ (s : List Char) (caps : Caps), starGreedy p s caps k = k (s.dropWhile p) caps := by
  intro s
  induction s with
  | nil => intro caps; rfl
  | cons c t ih =>
    intro caps
    show (if p c then
        match starGreedy p t caps k with
        | some r => some r
        | none => k (c :: t) caps
      else k (c :: t) caps) = k ((c :: t).dropWhile p) caps
    by_cases hp : p c = true
    · rw [if_pos hp, ih caps, List.dropWhile_cons, if_pos hp]
      cases hx : k (t.dropWhile p) caps with
      | none =>
        have := hk (t.dropWhile p) caps
        rw [hx] at this
        exact absurd this (by simp)
      | some v => rfl
    · rw [if_neg hp, List.dropWhile_cons, if_neg hp]

/-- The whitespace-run pattern `\s+` anchored at a nonempty position
matches exactly the maximal whitespace run. -/
theorem reMatchHere_wsPat_cons (c : Char) (s : List Char) :
    reMatchHere false wsPat (c :: s) =
      if isPySpace c then some (s.dropWhile isPySpace, ([] : Caps)) else none := by
  show (if isPySpace c then
      starGreedy isPySpace s [] (fun rest caps => some (rest, caps)) else none) = _
  by_cases hp : isPySpace c = true
  · rw [if_pos hp, if_pos hp,
      starGreedy_total isPySpace (fun rest caps => some (rest, caps)) (fun s caps => rfl) s []]
  · rw [if_neg hp, if_neg hp]

/-- Whitespace substitution step at a whitespace head. -/
theorem wsub_cons_ws (fuel : Nat) (c : Char) (s : List Char) (hc : isPySpace c = true) :
    reSubAux false wsPat [' '] (fuel + 1) (c :: s) =
      ' ' :: reSubAux false wsPat [' '] fuel (s.dropWhile isPySpace) := by
  have hm : reMatchHere false wsPat (c :: s) = some (s.dropWhile isPySpace, ([] : Caps)) := by
    rw [reMatchHere_wsPat_cons, if_pos hc]
  have hlen : (s.dropWhile isPySpace).length < (c :: s).length :=
    Nat.lt_succ_of_le (dropWhile_length_le _ s)
  calc reSubAux false wsPat [' '] (fuel + 1) (c :: s)
      = (match reMatchHere false wsPat (c :: s) with
         | some (rest, _) =>
           if rest.length < (c :: s).length then
             [' '] ++ reSubAux false wsPat [' '] fuel rest
           else c :: reSubAux false wsPat [' '] fuel s
         | none => c :: reSubAux false wsPat [' '] fuel s) := rfl
    _ = if (s.dropWhile isPySpace).length < (c :: s).length then
          [' '] ++ reSubAux false wsPat [' '] fuel (s.dropWhile isPySpace)
        else c :: reSubAux false wsPat [' '] fuel s := by rw [hm]
    _ = ' ' :: reSubAux false wsPat [' '] fuel (s.dropWhile isPySpace) := by
        rw [if_pos hlen]
        rfl

/-- Whitespace substitution step at a non-whitespace head. -/
theorem wsub_cons_not_ws (fuel : Nat) (c : Char) (s : List Char) (hc : isPySpace c = false) :
    reSubAux false wsPat [' '] (fuel + 1) (c :: s) = c :: reSubAux false wsPat [' '] fuel s := by
  have hm : reMatchHere false wsPat (c :: s) = none := by
    rw [reMatchHere_wsPat_cons, if_neg (by simp [hc])]
  calc reSubAux false wsPat [' '] (fuel + 1) (c :: s)
      = (match reMatchHere false wsPat (c :: s) with
         | some (rest, _) =>
           if rest.length < (c :: s).length then
             [' '] ++ reSubAux false wsPat [' '] fuel rest
           else c :: reSubAux false wsPat [' '] fuel s
         | none => c :: reSubAux false wsPat [' '] fuel s) := rfl
    _ = c :: reSubAux false wsPat [' '] fuel s := by rw [hm]

/-- Whitespace substitution fixes any list whose whitespace is already
normalized: all spaces, none adjacent. -/
theorem wsub_fix : ∀ (fuel : Nat) (l : List Char), wsNorm l → noAdjWs l →
    reSubAux false wsPat [' '] fuel l = l := by
  intro fuel
  induction fuel with
  | zero =>
    intro l _ _
    cases l with
    | nil => rfl
    | cons c s => rfl
  | succ fuel ih =>
    intro l hn ha
    cases l with
    | nil => rfl
    | cons c s =>
      by_cases hc : isPySpace c = true
      · have hds : s.dropWhile isPySpace = s := by
          apply dropWhileOfHead
          intro d hd
          have hR := (List.chain'_cons'.mp ha).1 d (Option.mem_def.mpr hd)
          by_contra hdd
          exact hR ⟨hc, by simpa using hdd⟩
        rw [wsub_cons_ws fuel c s hc, hds,
          ih s (fun d hd hw => hn d (List.mem_cons_of_mem _ hd) hw) (List.chain'_cons'.mp ha).2,
          hn c (List.mem_cons_self _ _) hc]
      · rw [wsub_cons_not_ws fuel c s (Bool.eq_false_iff.mpr hc),
          ih s (fun d hd hw => hn d (List.mem_cons_of_mem _ hd) hw) (List.chain'_cons'.mp ha).2]

/-- Whitespace substitution preserves a non-whitespace head. -/
theorem wsub_head (fuel : Nat) (l : List Char)
    (h : ∀ c, l.head? = some c → isPySpace c = false) :
    (reSubAux false wsPat [' '] fuel l).head? = l.head? := by
  cases fuel with
  | zero => cases l with
    | nil => rfl
    | cons c s => rfl
  | succ fuel =>
    cases l with
    | nil => rfl
    | cons c s =>
      rw [wsub_cons_not_ws fuel c s (h c rfl)]
      rfl

/-- The output of whitespace substitution has normalized whitespace: every
whitespace character is a space and no two are adjacent. -/
theorem wsub_props : ∀ (fuel : Nat) (l : List Char), l.length ≤ fuel →
    wsNorm (reSubAux false wsPat [' '] fuel l) ∧ noAdjWs (reSubAux false wsPat [' '] fuel l) := by
  intro fuel
  induction fuel with
  | zero =>
    intro l hl
    have h0 : l = [] := List.length_eq_zero.mp (Nat.le_zero.mp hl)
    subst h0
    show wsNorm [] ∧ noAdjWs []
    exact ⟨fun c hc => absurd hc (by simp), List.chain'_nil⟩
  | succ fuel ih =>
    intro l hl
    cases l with
    | nil =>
      show wsNorm [] ∧ noAdjWs []
      exact ⟨fun c hc => absurd hc (by simp), List.chain'_nil⟩
    | cons c s =>
      by_cases hc : isPySpace c = true
      · rw [wsub_cons_ws fuel c s hc]
        have hdlen : (s.dropWhile isPySpace).length ≤ fuel :=
          le_trans (dropWhile_length_le _ s) (Nat.le_of_succ_le_succ hl)
        have hdh : ∀ x, (s.dropWhile isPySpace).head? = some x → isPySpace x = false :=
          fun x hx => headDropWhile isPySpace s x hx
        obtain ⟨hn, ha⟩ := ih (s.dropWhile isPySpace) hdlen
        constructor
        · intro x hx hws
          rcases List.mem_cons.mp hx with rfl | hx2
          · rfl
          · exact hn x hx2 hws
        · refine List.chain'_cons'.mpr ⟨fun b hb => ?_, ha⟩
          have hbh := wsub_head fuel (s.dropWhile isPySpace) hdh
          have hbe : (s.dropWhile isPySpace).head? = some b := by
            rw [← hbh]
            exact Option.mem_def.mp hb
          have hbws := hdh b hbe
          intro hcon
          rw [hbws] at hcon
          exact absurd hcon.2 (by simp)
      · have hcf : isPySpace c = false := Bool.eq_false_iff.mpr hc
        rw [wsub_cons_not_ws fuel c s hcf]
        obtain ⟨hn, ha⟩ := ih s (Nat.le_of_succ_le_succ hl)
        constructor
        · intro x hx hws
          rcases List.mem_cons.mp hx with rfl | hx2
          · rw [hcf] at hws
            exact absurd hws (by simp)
          · exact hn x hx2 hws
        · refine List.chain'_cons'.mpr ⟨fun b _ => ?_, ha⟩
          intro hcon
          rw [hcf] at hcon
          exact absurd hcon.1 (by simp)

/-- Characters of the stripped string come from the original. -/
theorem pyStrip_mem (s : String) (c : Char) (h : c ∈ (pyStrip s).data) : c ∈ s.data := by
  have h1 : c ∈ ((s.data.dropWhile isPySpace).reverse.dropWhile isPySpace).reverse := h
  rw [List.mem_reverse] at h1
  have h2 := (List.dropWhile_suffix isPySpace).subset h1
  rw [List.mem_reverse] at h2
  exact (List.dropWhile_suffix isPySpace).subset h2

/-- Adjacent-whitespace freedom is symmetric, so it survives reversal. -/
theorem noAdjWs_reverse (l : List Char) (h : noAdjWs l) : noAdjWs l.reverse := by
  refine List.chain'_reverse.mpr ?_
  exact List.Chain'.imp (fun a b hab => fun hc => hab ⟨hc.2, hc.1⟩) h

/-- Stripping preserves adjacent-whitespace freedom. -/
theorem pyStrip_chain (s : String) (h : noAdjWs s.data) : noAdjWs (pyStrip s).data := by
  have h1 : noAdjWs (s.data.dropWhile isPySpace) :=
    List.Chain'.suffix h (List.dropWhile_suffix isPySpace)
  have h2 := noAdjWs_reverse _ h1
  have h3 : noAdjWs ((s.data.dropWhile isPySpace).reverse.dropWhile isPySpace) :=
    List.Chain'.suffix h2 (List.dropWhile_suffix isPySpace)
  exact noAdjWs_reverse _ h3

/-- `pyStrip` is idempotent. -/
theorem pyStrip_idem (s : String) : pyStrip (pyStrip s) = pyStrip s := by
  by_cases hy : (s.data.dropWhile isPySpace).reverse.dropWhile isPySpace = []
  · have h1 : pyStrip s = String.mk [] := by
      show String.mk ((s.data.dropWhile isPySpace).reverse.dropWhile isPySpace).reverse = _
      rw [hy]
      rfl
    rw [h1]
    rfl
  · have hyhead : ∀ c, ((s.data.dropWhile isPySpace).reverse.dropWhile isPySpace).head? = some c →
        isPySpace c = false :=
      fun c hc => headDropWhile isPySpace _ c hc
    have hylast : ∀ c, ((s.data.dropWhile isPySpace).reverse.dropWhile isPySpace).getLast? = some c →
        isPySpace c = false := by
      intro c hc
      have he : ((s.data.dropWhile isPySpace).reverse.dropWhile isPySpace).getLast? =
          (s.data.dropWhile isPySpace).reverse.getLast? :=
        getLastSuffix _ _ (List.dropWhile_suffix isPySpace) hy
      rw [he, List.getLast?_reverse] at hc
      exact headDropWhile isPySpace s.data c hc
    show String.mk ((((((s.data.dropWhile isPySpace).reverse.dropWhile
        isPySpace).reverse).dropWhile isPySpace).reverse.dropWhile isPySpace).reverse) = pyStrip s
    have hstep1 : ((s.data.dropWhile isPySpace).reverse.dropWhile isPySpace).reverse.dropWhile
        isPySpace = ((s.data.dropWhile isPySpace).reverse.dropWhile isPySpace).reverse := by
      apply dropWhileOfHead
      intro c hc
      rw [List.head?_reverse] at hc
      exact hylast c hc
    rw [hstep1, List.reverse_reverse]
    have hstep2 : ((s.data.dropWhile isPySpace).reverse.dropWhile isPySpace).dropWhile isPySpace =
        (s.data.dropWhile isPySpace).reverse.dropWhile isPySpace :=
      dropWhileOfHead _ _ hyhead
    rw [hstep2]
    rfl

/-- Every colon or dash of the title-normalization class is punctuation in
the `[^\w\s]` sense. -/
theorem dash_punct (c : Char) (h : dashC c = true) : punctC c = true := by
  have h2 : (c = ':' || c = '-' || c = '–' || c = '—') = true := h
  simp only [Bool.or_eq_true, decide_eq_true_eq] at h2
  rcases h2 with ((rfl | rfl) | rfl) | rfl <;> decide

/-- C10: title normalization is idempotent: for every input string `t`,
`normalize_book_title (normalize_book_title t) = normalize_book_title t`;
each stage of the pipeline (lowercasing, subtitle removal, punctuation
removal, whitespace collapsing, stripping) fixes the output of a first
normalization. -/
theorem C10_normalize_idempotent (t : String) :
    normalize_book_title (normalize_book_title t) = normalize_book_title t := by
  by_cases h0 : t = ""
  · rw [h0]
    rfl
  · by_cases hr : normalize_book_title t = ""
    · rw [hr]
      rfl
    · have hnt : normalize_book_title t =
          pyStrip (reSub false wsPat " " (reSub false (RE.cls punctC) ""
            (reSub false subtitlePat "" (pyLower t)))) := by
        show (if t = "" then "" else pyStrip (reSub false wsPat " "
          (reSub false (RE.cls punctC) "" (reSub false subtitlePat "" (pyLower t))))) = _
        rw [if_neg h0]
      have hfil : (reSub false (RE.cls punctC) "" (reSub false subtitlePat "" (pyLower t))).data =
          (reSub false subtitlePat "" (pyLower t)).data.filter (fun c => !punctC c) := by
        show reSubAux false (RE.cls punctC) []
            (reSub false subtitlePat "" (pyLower t)).data.length
            (reSub false subtitlePat "" (pyLower t)).data = _
        exact reSubAux_cls_filter false punctC _ _ (le_refl _)
      have hlow : ∀ c ∈ (normalize_book_title t).data, Char.toLower c = c := by
        intro c hc
        rw [hnt] at hc
        have hc1 := pyStrip_mem _ c hc
        rcases reSub_subset false wsPat " " _ c hc1 with hsp | hc2
        · have hsp2 : c ∈ [' '] := hsp
          rw [List.mem_singleton] at hsp2
          rw [hsp2]
          decide
        · rcases reSub_subset false (RE.cls punctC) "" _ c hc2 with hn2 | hc3
          · have hn3 : c ∈ ([] : List Char) := hn2
            exact absurd hn3 (by simp)
          · rcases reSub_subset false subtitlePat "" _ c hc3 with hn2 | hc4
            · have hn3 : c ∈ ([] : List Char) := hn2
              exact absurd hn3 (by simp)
            · have hc5 : c ∈ t.data.map Char.toLower := hc4
              rcases List.mem_map.mp hc5 with ⟨d, _, rfl⟩
              exact toLower_idem d
      have hpun : ∀ c ∈ (normalize_book_title t).data, punctC c = false := by
        intro c hc
        rw [hnt] at hc
        have hc1 := pyStrip_mem _ c hc
        rcases reSub_subset false wsPat " " _ c hc1 with hsp | hc2
        · have hsp2 : c ∈ [' '] := hsp
          rw [List.mem_singleton] at hsp2
          rw [hsp2]
          decide
        · rw [hfil] at hc2
          have h3 := List.of_mem_filter hc2
          simpa using h3
      have hdash : ∀ c ∈ (normalize_book_title t).data, dashC c = false := by
        intro c hc
        cases hb : dashC c with
        | false => rfl
        | true =>
          have h4 := dash_punct c hb
          rw [hpun c hc] at h4
          exact absurd h4 (by simp)
      have hwp := wsub_props
        (reSub false (RE.cls punctC) "" (reSub false subtitlePat "" (pyLower t))).data.length
        (reSub false (RE.cls punctC) "" (reSub false subtitlePat "" (pyLower t))).data
        (le_refl _)
      have hwsN : wsNorm (normalize_book_title t).data := by
        intro c hc hws
        rw [hnt] at hc
        have hc1 := pyStrip_mem _ c hc
        have hc2 : c ∈ reSubAux false wsPat [' ']
            (reSub false (RE.cls punctC) "" (reSub false subtitlePat "" (pyLower t))).data.length
            (reSub false (RE.cls punctC) "" (reSub false subtitlePat "" (pyLower t))).data := hc1
        exact hwp.1 c hc2 hws
      have hadj : noAdjWs (normalize_book_title t).data := by
        rw [hnt]
        exact pyStrip_chain
          (reSub false wsPat " "
            (reSub false (RE.cls punctC) "" (reSub false subtitlePat "" (pyLower t)))) hwp.2
      have e1 : pyLower (normalize_book_title t) = normalize_book_title t := by
        show String.mk ((normalize_book_title t).data.map Char.toLower) = _
        rw [mapEqSelf Char.toLower _ hlow]
      have e2 : reSub false subtitlePat "" (normalize_book_title t) = normalize_book_title t := by
        show String.mk (reSubAux false (RE.seq (RE.cls dashC) (RE.seq (RE.star dotC false) RE.eos))
          [] (normalize_book_title t).data.length (normalize_book_title t).data) = _
        rw [reSubAux_seq_cls_id false dashC (RE.seq (RE.star dotC false) RE.eos) []
          (normalize_book_title t).data.length (normalize_book_title t).data hdash]
      have e3 : reSub false (RE.cls punctC) "" (normalize_book_title t) =
          normalize_book_title t := by
        show String.mk (reSubAux false (RE.cls punctC) []
          (normalize_book_title t).data.length (normalize_book_title t).data) = _
        rw [reSubAux_cls_filter false punctC _ _ (le_refl _),
          List.filter_eq_self.mpr (fun a ha => by simp [hpun a ha])]
      have e4 : reSub false wsPat " " (normalize_book_title t) = normalize_book_title t := by
        show String.mk (reSubAux false wsPat [' ']
          (normalize_book_title t).data.length (normalize_book_title t).data) = _
        rw [wsub_fix _ _ hwsN hadj]
      have e5 : pyStrip (normalize_book_title t) = normalize_book_title t := by
        rw [hnt]
        exact pyStrip_idem _
      show (if normalize_book_title t = "" then "" else
        pyStrip (reSub false wsPat " " (reSub false (RE.cls punctC) ""
          (reSub false subtitlePat "" (pyLower (normalize_book_title t)))))) =
        normalize_book_title t
      rw [if_neg hr, e1, e2, e3, e4, e5]
